import Mathlib

/-!
Verification of the bugstr crash-report pipeline (Rust sources under `src/rust/src`).

Rust values are shallowly embedded:
* `&[u8]` / `Vec<u8>` as `List Nat` whose elements are below 256;
* `String` / `&str` as `List Char`;
* machine integers as `Nat`, reduced `% 2^32` (resp. `% 2^64`) exactly where the
  Rust code performs an `as u32` (resp. `as u64`) conversion or fixed-width arithmetic;
* fallible functions as `Option` / `Except`.

Third-party crates used by the sources (`sha2`, `hex`, `base64`, `hashtree_core`,
`flate2`, `serde_json`, `semver`, `rusqlite`) are not part of this repository; each
is given an executable model, documented at its definition.
-/

namespace Bugstr

/-- Value `2^32`, the modulus of Rust `u32` arithmetic and `as u32` casts. -/
def U32 : Nat := 4294967296

/-- Value `2^64`, the modulus of Rust `u64` arithmetic and `as u64` casts. -/
def U64 : Nat := 18446744073709551616

/-- Decimal representation of a natural number as characters, mirroring Rust's
`{}` formatting of unsigned integers inside `format!`. -/
def natDigits (n : Nat) : List Char :=
  Nat.toDigits 10 n

/-! ### Model of the `hex` crate -/

/-- Lower-case hex digit for a value below 16 (`hex` crate encoding alphabet). -/
def hexDigit (d : Nat) : Char :=
  if d < 10 then Char.ofNat (48 + d) else Char.ofNat (87 + d)

/-- Modelled from the spec: `hex::encode` — two lower-case hex characters per byte,
most significant nibble first. -/
def hexEncode : List Nat → List Char
  | [] => []
  | b :: bs => hexDigit (b / 16) :: hexDigit (b % 16) :: hexEncode bs

/-- Value of a hex character; `hex::decode` accepts both lower and upper case. -/
def hexDigitVal (c : Char) : Option Nat :=
  if 48 ≤ c.toNat ∧ c.toNat ≤ 57 then some (c.toNat - 48)
  else if 97 ≤ c.toNat ∧ c.toNat ≤ 102 then some (c.toNat - 87)
  else if 65 ≤ c.toNat ∧ c.toNat ≤ 70 then some (c.toNat - 55)
  else none

/-- Modelled from the spec: `hex::decode` — fails on odd length or any non-hex
character, otherwise pairs characters into bytes. -/
def hexDecode : List Char → Option (List Nat)
  | [] => some []
  | [_] => none
  | c₁ :: c₂ :: rest => do
      let h ← hexDigitVal c₁
      let l ← hexDigitVal c₂
      let bs ← hexDecode rest
      pure ((16 * h + l) :: bs)

/-! ### Model of the `base64` crate (`general_purpose::STANDARD`: standard
alphabet, padding required, canonical trailing bits) -/

/-- Standard base64 alphabet character for a sextet value below 64. -/
def b64Char (s : Nat) : Char :=
  if s < 26 then Char.ofNat (65 + s)
  else if s < 52 then Char.ofNat (71 + s)
  else if s < 62 then Char.ofNat (s - 4)
  else if s = 62 then '+'
  else '/'

/-- Modelled from the spec: `base64::engine::general_purpose::STANDARD.encode` —
groups of three bytes become four alphabet characters; a short final group is
padded with `=`. -/
def b64Encode : List Nat → List Char
  | [] => []
  | [b0] => [b64Char (b0 / 4), b64Char (b0 % 4 * 16), '=', '=']
  | [b0, b1] => [b64Char (b0 / 4), b64Char (b0 % 4 * 16 + b1 / 16), b64Char (b1 % 16 * 4), '=']
  | b0 :: b1 :: b2 :: rest =>
      b64Char (b0 / 4) :: b64Char (b0 % 4 * 16 + b1 / 16) :: b64Char (b1 % 16 * 4 + b2 / 64) ::
        b64Char (b2 % 64) :: b64Encode rest

/-- Sextet value of a standard-alphabet base64 character. -/
def b64Val (c : Char) : Option Nat :=
  if 65 ≤ c.toNat ∧ c.toNat ≤ 90 then some (c.toNat - 65)
  else if 97 ≤ c.toNat ∧ c.toNat ≤ 122 then some (c.toNat - 71)
  else if 48 ≤ c.toNat ∧ c.toNat ≤ 57 then some (c.toNat + 4)
  else if c = '+' then some 62
  else if c = '/' then some 63
  else none

/-- Modelled from the spec: `STANDARD.decode` — input length must be a multiple of
four, padding only in the final group, non-canonical (non-zero) trailing bits are
rejected. -/
def b64Decode : List Char → Option (List Nat)
  | [] => some []
  | c0 :: c1 :: c2 :: c3 :: rest =>
      if c2 = '=' ∧ c3 = '=' ∧ rest = [] then do
        let s0 ← b64Val c0
        let s1 ← b64Val c1
        if s1 % 16 = 0 then pure [s0 * 4 + s1 / 16] else none
      else if c3 = '=' ∧ rest = [] then do
        let s0 ← b64Val c0
        let s1 ← b64Val c1
        let s2 ← b64Val c2
        if s2 % 4 = 0 then pure [s0 * 4 + s1 / 16, s1 % 16 * 16 + s2 / 4] else none
      else do
        let s0 ← b64Val c0
        let s1 ← b64Val c1
        let s2 ← b64Val c2
        let s3 ← b64Val c3
        let bs ← b64Decode rest
        pure ((s0 * 4 + s1 / 16) :: (s1 % 16 * 16 + s2 / 4) :: (s2 % 4 * 64 + s3) :: bs)
  | _ => none

/-! ### Model of the `sha2` crate: SHA-256 (FIPS 180-4) over byte lists -/

/-- Right rotation of a 32-bit word. -/
def rotr32 (n x : Nat) : Nat := ((x >>> n) ||| (x <<< (32 - n))) % U32

/-- SHA-256 round constants (fractional parts of cube roots of the first 64 primes). -/
def sha256K : List Nat :=
  [1116352408, 1899447441, 3049323471, 3921009573, 961987163, 1508970993, 2453635748,
   2870763221, 3624381080, 310598401, 607225278, 1426881987, 1925078388, 2162078206,
   2614888103, 3248222580, 3835390401, 4022224774, 264347078, 604807628, 770255983,
   1249150122, 1555081692, 1996064986, 2554220882, 2821834349, 2952996808, 3210313671,
   3336571891, 3584528711, 113926993, 338241895, 666307205, 773529912, 1294757372,
   1396182291, 1695183700, 1986661051, 2177026350, 2456956037, 2730485921, 2820302411,
   3259730800, 3345764771, 3516065817, 3600352804, 4094571909, 275423344, 430227734,
   506948616, 659060556, 883997877, 958139571, 1322822218, 1537002063, 1747873779,
   1955562222, 2024104815, 2227730452, 2361852424, 2428436474, 2756734187, 3204031479,
   3329325298]

/-- SHA-256 initial hash state. -/
def sha256H0 : List Nat :=
  [1779033703, 3144134277, 1013904242, 2773480762, 1359893119, 2600822924, 528734635,
   1541459225]

/-- Big-endian byte expansion of a number into `k` bytes. -/
def beBytes : Nat → Nat → List Nat
  | 0, _ => []
  | k + 1, n => beBytes k (n / 256) ++ [n % 256]

/-- SHA-256 message padding: a `0x80` byte, zero fill to 56 mod 64, then the
bit length as eight big-endian bytes. -/
def sha256Pad (msg : List Nat) : List Nat :=
  let L := msg.length
  let k := (64 - (L + 9) % 64) % 64
  msg ++ 128 :: List.replicate k 0 ++ beBytes 8 ((L * 8) % U64)

/-- Big-endian packing of bytes into 32-bit words. -/
def bytesToWords : List Nat → List Nat
  | b0 :: b1 :: b2 :: b3 :: rest => (((b0 * 256 + b1) * 256 + b2) * 256 + b3) :: bytesToWords rest
  | _ => []

/-- SHA-256 small sigma 0. -/
def smallSigma0 (x : Nat) : Nat := rotr32 7 x ^^^ rotr32 18 x ^^^ (x >>> 3)

/-- SHA-256 small sigma 1. -/
def smallSigma1 (x : Nat) : Nat := rotr32 17 x ^^^ rotr32 19 x ^^^ (x >>> 10)

/-- SHA-256 big sigma 0. -/
def bigSigma0 (x : Nat) : Nat := rotr32 2 x ^^^ rotr32 13 x ^^^ rotr32 22 x

/-- SHA-256 big sigma 1. -/
def bigSigma1 (x : Nat) : Nat := rotr32 6 x ^^^ rotr32 11 x ^^^ rotr32 25 x

/-- Extends the 16-word message block by `t` schedule words. -/
def sha256Schedule (w : List Nat) : Nat → List Nat
  | 0 => w
  | t + 1 =>
      let n := w.length
      let wn := (smallSigma1 (w.getD (n - 2) 0) + w.getD (n - 7) 0 +
        smallSigma0 (w.getD (n - 15) 0) + w.getD (n - 16) 0) % U32
      sha256Schedule (w ++ [wn]) t

/-- One SHA-256 compression round on the state `[a,b,c,d,e,f,g,h]` with a
pre-added constant-plus-schedule word. -/
def sha256Round (state : List Nat) (kw : Nat) : List Nat :=
  match state with
  | [a, b, c, d, e, f, g, h] =>
      let ch := (e &&& f) ^^^ ((4294967295 ^^^ e) &&& g)
      let maj := (a &&& b) ^^^ (a &&& c) ^^^ (b &&& c)
      let t1 := (h + bigSigma1 e + ch + kw) % U32
      let t2 := (bigSigma0 a + maj) % U32
      [(t1 + t2) % U32, a, b, c, (d + t1) % U32, e, f, g]
  | s => s

/-- Processes one 64-byte block into the running hash state. -/
def sha256Block (h : List Nat) (block : List Nat) : List Nat :=
  let w := sha256Schedule (bytesToWords block) 48
  let kw := (sha256K.zip w).map (fun p => (p.1 + p.2) % U32)
  let final := kw.foldl sha256Round h
  (h.zip final).map (fun p => (p.1 + p.2) % U32)

/-- Folds all 64-byte blocks of a padded message into the hash state. -/
def sha256Blocks (h : List Nat) : List Nat → List Nat
  | [] => h
  | b :: bs => sha256Blocks (sha256Block h ((b :: bs).take 64)) ((b :: bs).drop 64)
  termination_by l => l.length
  decreasing_by simp; omega

/-- Modelled from the spec: SHA-256 of a byte list (the `sha2` crate's
`Sha256`, also used by `hashtree_core` for content-hash keys). -/
def sha256 (msg : List Nat) : List Nat :=
  ((sha256Blocks sha256H0 (sha256Pad msg)).map (beBytes 4)).flatten

/-! ### Model of `hashtree_core` CHK encryption -/

/-- Keystream application: byte `i` of the message is XORed with byte `i mod 32`
of the 32-byte key. -/
def xorFrom (key : List Nat) : Nat → List Nat → List Nat
  | _, [] => []
  | i, b :: bs => (b ^^^ key.getD (i % 32) 0) :: xorFrom key (i + 1) bs

/-- Modelled from the spec (§4.D): `hashtree_core::crypto::encrypt_chk` returns
`(ciphertext, key)` where the key is the SHA-256 of the plaintext (the CHK
property). The cipher itself is modelled as a key-derived XOR stream; the claims
rely only on the key being `sha256 m` and on `decryptChk` inverting it. -/
def encryptChk (m : List Nat) : List Nat × List Nat :=
  (xorFrom (sha256 m) 0 m, sha256 m)

/-- Modelled from the spec (§4.D): `hashtree_core::crypto::decrypt_chk`. The
model inverts the XOR stream and cannot itself fail; authentication failure of
the real AEAD primitive is not relied on by any claim. -/
def decryptChk (c : List Nat) (key : List Nat) : Option (List Nat) :=
  some (xorFrom key 0 c)

/-! ### Rust `slice::chunks` -/

/-- Embedding of Rust `data.chunks(n)`: splits a list into consecutive windows
of `n` elements, the last possibly shorter. -/
def listChunks (n : Nat) : List α → List (List α)
  | [] => []
  | a :: l => (a :: l.take (n - 1)) :: listChunks n (l.drop (n - 1))
  termination_by l => l.length
  decreasing_by simp; omega

/-! ### Transport layer (`src/rust/src/transport.rs`) -/

/-- Size threshold (bytes) for switching from direct to chunked transport
(`transport.rs:59`). -/
def DIRECT_SIZE_THRESHOLD : Nat := 50 * 1024

/-- Maximum chunk size for hashtree transport (`transport.rs:65`). -/
def MAX_CHUNK_SIZE : Nat := 48 * 1024

/-- Transport kind for a payload (`transport.rs:174`). -/
inductive TransportKind
  | Direct
  | Chunked
deriving DecidableEq, Repr

/-- Embedding of `TransportKind::for_size` (`transport.rs:183`). -/
def TransportKind.for_size (size : Nat) : TransportKind :=
  if size ≤ DIRECT_SIZE_THRESHOLD then .Direct else .Chunked

/-- Chunk payload, kind 10422 (`transport.rs:144`). `index` is a `u32`. -/
structure ChunkPayload where
  v : Nat
  index : Nat
  hash : List Char
  data : List Char
deriving DecidableEq, Repr

/-- Manifest payload, kind 10421. Fields `v`, `root_hash`, `total_size` (`u64`),
`chunk_count` (`u32`) and `chunk_ids` are declared at `transport.rs:104-125`.
The `chunk_relays` field (an optional map from chunk event id to relay URLs) is
written by `chunking.rs:145` (`chunk_relays: None`) and read by
`src/bin/main.rs:930` (`manifest.chunk_relays.as_ref()`), but is absent from the
struct declaration in `transport.rs` — the declaration and its users disagree;
the field is included here so that both users are representable. -/
structure ManifestPayload where
  v : Nat
  root_hash : List Char
  total_size : Nat
  chunk_count : Nat
  chunk_ids : List (List Char)
  chunk_relays : Option (List (List Char × List (List Char)))
deriving DecidableEq, Repr

/-! ### Chunk engine (`src/rust/src/chunking.rs`) -/

/-- Errors of the chunking engine (`chunking.rs:44`). Error strings carried by
the Rust variants keep their `format!` prefixes; text interpolated from
third-party error displays is elided. -/
inductive ChunkingError
  | PayloadTooSmall
  | EncryptionError (msg : List Char)
  | DecryptionError (msg : List Char)
  | InvalidManifest (msg : List Char)
  | MissingChunk (index : Nat)
  | ChunkHashMismatch (index : Nat)
  | InvalidRootHash
deriving DecidableEq, Repr

/-- Result of chunking a large payload (`chunking.rs:69`). -/
structure ChunkingResult where
  manifest : ManifestPayload
  chunks : List ChunkPayload
deriving DecidableEq, Repr

/-- Construction of one encrypted chunk in the loop of `chunk_payload`
(`chunking.rs:110-129`): `index as u32`, hex-encoded CHK key as `hash`,
base64-encoded ciphertext as `data`. -/
def mkChunk (p : Nat × List Nat) : ChunkPayload :=
  { v := 1, index := p.1 % U32, hash := hexEncode (encryptChk p.2).2,
    data := b64Encode (encryptChk p.2).1 }

/-- Embedding of `chunk_payload` (`chunking.rs:94`): rejects payloads at or
below the direct threshold, splits into 48 KiB windows, CHK-encrypts each
(hex key, base64 ciphertext), and hashes the concatenated keys into the root
hash. `index as u32` and `chunks.len() as u32` are the `% U32` reductions,
`data.len() as u64` the `% U64` one. -/
def chunkPayload (data : List Nat) : Except ChunkingError ChunkingResult :=
  if data.length ≤ DIRECT_SIZE_THRESHOLD then .error .PayloadTooSmall
  else
    let pieces := listChunks MAX_CHUNK_SIZE data
    let chunks := pieces.enum.map mkChunk
    let chunk_keys := pieces.map (fun w => (encryptChk w).2)
    .ok { manifest := { v := 1, root_hash := hexEncode (sha256 chunk_keys.flatten),
                        total_size := data.length % U64,
                        chunk_count := chunks.length % U32, chunk_ids := [],
                        chunk_relays := none },
          chunks := chunks }

/-- Embedding of `expected_chunk_count` (`chunking.rs:239`). -/
def expected_chunk_count (payload_size : Nat) : Nat :=
  ((payload_size + MAX_CHUNK_SIZE - 1) / MAX_CHUNK_SIZE) % U32

/-- The stable sort by chunk index performed by `reassemble_payload`
(`chunking.rs:186-187`, `sort_by_key(|c| c.index)`). -/
def sortChunks (chunks : List ChunkPayload) : List ChunkPayload :=
  chunks.mergeSort (fun a b => a.index ≤ b.index)

/-- The index verification loop of `reassemble_payload` (`chunking.rs:190-194`):
the first position `i` whose chunk index differs from `i as u32` yields
`MissingChunk(i as u32)`. -/
def checkIndicesFrom : Nat → List ChunkPayload → Except ChunkingError Unit
  | _, [] => .ok ()
  | i, c :: rest =>
      if c.index ≠ i % U32 then .error (.MissingChunk (i % U32))
      else checkIndicesFrom (i + 1) rest

/-- Per-chunk decode step of `reassemble_payload` (`chunking.rs:200-223`):
hex-decode the hash into a 32-byte key, base64-decode the data, CHK-decrypt.
Returns the key and the plaintext. -/
def decodeChunk (c : ChunkPayload) : Except ChunkingError (List Nat × List Nat) :=
  match hexDecode c.hash with
  | none => .error (.DecryptionError "Invalid chunk hash: ".toList)
  | some keyBytes =>
      if keyBytes.length = 32 then
        match b64Decode c.data with
        | none => .error (.DecryptionError "Base64 decode failed: ".toList)
        | some ciphertext =>
            match decryptChk ciphertext keyBytes with
            | none => .error (.DecryptionError [])
            | some plain => .ok (keyBytes, plain)
      else .error (.DecryptionError "Invalid key length".toList)

/-- The decode loop of `reassemble_payload`: processes chunks in order,
collecting keys and concatenating plaintexts, stopping at the first failure. -/
def decodeChunks : List ChunkPayload → Except ChunkingError (List (List Nat) × List Nat)
  | [] => .ok ([], [])
  | c :: rest => do
      let (key, plain) ← decodeChunk c
      let (keys, out) ← decodeChunks rest
      .ok (key :: keys, plain ++ out)

/-- Message of the chunk-count mismatch error (`chunking.rs:178-182`). -/
def invalidManifestMsg (expected got : Nat) : List Char :=
  "Expected ".toList ++ natDigits expected ++ " chunks, got ".toList ++ natDigits got

/-- Embedding of `reassemble_payload` (`chunking.rs:170-236`): chunk-count
check, stable sort by index, contiguous-index check, per-chunk decode, root-hash
verification. -/
def reassemblePayload (manifest : ManifestPayload) (chunks : List ChunkPayload) :
    Except ChunkingError (List Nat) :=
  if chunks.length ≠ manifest.chunk_count then
    .error (.InvalidManifest (invalidManifestMsg manifest.chunk_count chunks.length))
  else
    let sorted := sortChunks chunks
    match checkIndicesFrom 0 sorted with
    | .error e => .error e
    | .ok _ =>
        match decodeChunks sorted with
        | .error e => .error e
        | .ok (keys, result) =>
            if hexEncode (sha256 keys.flatten) ≠ manifest.root_hash then
              .error .InvalidRootHash
            else .ok result

/-! ### Compression envelope (`src/rust/src/compression.rs`) -/

/-- Compressed payload envelope (`compression.rs:19`). -/
structure CompressedEnvelope where
  v : Nat
  compression : List Char
  payload : List Char
deriving DecidableEq, Repr

/-- Compression errors (`compression.rs:30`); interpolated third-party error
text is elided. -/
inductive CompressionError
  | CompressionFailed (msg : List Char)
  | Base64DecodeFailed (msg : List Char)
  | JsonFailed (msg : List Char)
  | Utf8Failed (msg : List Char)
deriving DecidableEq, Repr

/-- Embedding of Rust `str::trim`: removes whitespace characters from both ends
(Rust trims the Unicode `White_Space` set; the claims only meet ASCII
whitespace, for which `Char.isWhitespace` agrees). -/
def trimChars (s : List Char) : List Char :=
  ((s.dropWhile Char.isWhitespace).reverse.dropWhile Char.isWhitespace).reverse

/-- Embedding of Rust `str::contains(&str)`: substring containment. -/
def containsSub (needle : List Char) : List Char → Bool
  | [] => needle.isEmpty
  | c :: rest => needle.isPrefixOf (c :: rest) || containsSub needle rest

/-- Consumes characters of a JSON string value up to an unescaped closing
quote; rejects escapes and unterminated strings. -/
def spanNotQuote : List Char → Option (List Char × List Char)
  | [] => none
  | c :: r =>
      if c = '"' then some ([], r)
      else if c = '\\' then none
      else do
        let (s, rest) ← spanNotQuote r
        pure (c :: s, rest)

/-- Splits a leading run of decimal digits from a character list. -/
def spanDigits : List Char → List Char × List Char
  | [] => ([], [])
  | c :: r =>
      if c.isDigit then
        let (d, rest) := spanDigits r
        (c :: d, rest)
      else ([], c :: r)

/-- Numeric value of a list of decimal digit characters. -/
def digitsToNat (s : List Char) : Nat :=
  s.foldl (fun n c => n * 10 + (c.toNat - 48)) 0

/-- Consumes an expected literal from the front of a character list. -/
def expectLit (lit s : List Char) : Option (List Char) :=
  if lit.isPrefixOf s then some (s.drop lit.length) else none

/-- Modelled from the spec (§4.A): `serde_json::from_str::<CompressedEnvelope>`,
restricted to the canonical envelope serialization
`{"v":<digits>,"compression":"…","payload":"…"}` with unescaped string values —
the shape `compress_payload` produces. Inputs outside this shape are rejected,
standing for a JSON parse error; a `v` outside `u8` range is rejected as serde
would. -/
def parseEnvelope (s : List Char) : Option CompressedEnvelope := do
  let s ← expectLit "\x7b\"v\":".toList s
  let (ds, s) := spanDigits s
  if ds.isEmpty then none
  else if digitsToNat ds ≥ 256 then none
  else
    let s ← expectLit ",\"compression\":\"".toList s
    let (comp, s) ← spanNotQuote s
    let s ← expectLit ",\"payload\":\"".toList s
    let (pay, s) ← spanNotQuote s
    let s ← expectLit "\x7d".toList s
    if s.isEmpty then some ⟨digitsToNat ds, comp, pay⟩ else none

/-- Modelled from the spec (§4.A): `flate2` gzip inflation
(`GzDecoder::read_to_end`). The codec is modelled as a magic-prefixed identity:
decoding requires and strips the gzip magic bytes `0x1f 0x8b`, failing
otherwise. Only invertibility and fallibility are relied on. -/
def gzipDecompress : List Nat → Option (List Nat)
  | 31 :: 139 :: rest => some rest
  | _ => none

/-- Embedding of Rust `String::from_utf8`: strict UTF-8 decoding, rejecting
invalid leading bytes, truncated or malformed sequences, overlong encodings,
surrogates, and code points above `0x10FFFF`. -/
def utf8Decode : List Nat → Option (List Char)
  | [] => some []
  | b :: bs =>
      if b < 128 then (utf8Decode bs).map (Char.ofNat b :: ·)
      else if b < 192 then none
      else if b < 224 then
        match bs with
        | b1 :: rest =>
            if 128 ≤ b1 ∧ b1 < 192 then
              let cp := (b - 192) * 64 + (b1 - 128)
              if cp < 128 then none else (utf8Decode rest).map (Char.ofNat cp :: ·)
            else none
        | _ => none
      else if b < 240 then
        match bs with
        | b1 :: b2 :: rest =>
            if (128 ≤ b1 ∧ b1 < 192) ∧ (128 ≤ b2 ∧ b2 < 192) then
              let cp := (b - 224) * 4096 + (b1 - 128) * 64 + (b2 - 128)
              if cp < 2048 ∨ (55296 ≤ cp ∧ cp ≤ 57343) then none
              else (utf8Decode rest).map (Char.ofNat cp :: ·)
            else none
        | _ => none
      else if b < 248 then
        match bs with
        | b1 :: b2 :: b3 :: rest =>
            if (128 ≤ b1 ∧ b1 < 192) ∧ (128 ≤ b2 ∧ b2 < 192) ∧ (128 ≤ b3 ∧ b3 < 192) then
              let cp := (b - 240) * 262144 + (b1 - 128) * 4096 + (b2 - 128) * 64 + (b3 - 128)
              if cp < 65536 ∨ cp > 1114111 then none
              else (utf8Decode rest).map (Char.ofNat cp :: ·)
            else none
        | _ => none
      else none
  termination_by l => l.length
  decreasing_by all_goals (simp_all; try omega)

/-- Embedding of `decompress_payload` (`compression.rs:83-103`): structural
envelope detection and JSON parse failures return the input unchanged; base64,
gzip and UTF-8 failures propagate as errors via `?`. -/
def decompressPayload (envelope : List Char) : Except CompressionError (List Char) :=
  let trimmed := trimChars envelope
  if ¬(trimmed.head? = some '{' ∧ containsSub "\"compression\"".toList trimmed) then
    .ok envelope
  else
    match parseEnvelope trimmed with
    | none => .ok envelope
    | some parsed =>
        match b64Decode parsed.payload with
        | none => .error (.Base64DecodeFailed [])
        | some compressed =>
            match gzipDecompress compressed with
            | none => .error (.CompressionFailed [])
            | some bytes =>
                match utf8Decode bytes with
                | none => .error (.Utf8Failed [])
                | some s => .ok s

/-! ### Symbolication platform and errors (`src/rust/src/symbolication/mod.rs`) -/

/-- Platform identifier (`mod.rs:83`). -/
inductive Platform
  | Android
  | Electron
  | Flutter
  | Rust
  | Go
  | Python
  | ReactNative
  | Unknown (s : List Char)
deriving DecidableEq, Repr

/-- Embedding of `Platform::as_str` (`mod.rs:110`). -/
def Platform.asStr : Platform → List Char
  | .Android => "android".toList
  | .Electron => "electron".toList
  | .Flutter => "flutter".toList
  | .Rust => "rust".toList
  | .Go => "go".toList
  | .Python => "python".toList
  | .ReactNative => "react-native".toList
  | .Unknown s => s

/-- Symbolication errors (`mod.rs:57`); interpolated error text is kept where
the source formats it directly. -/
inductive SymbolicationError
  | MappingNotFound (platform app_id version : List Char)
  | ParseError (msg : List Char)
  | IoError (msg : List Char)
  | UnsupportedPlatform (msg : List Char)
  | ToolError (msg : List Char)
  | InvalidPath (msg : List Char)
deriving DecidableEq, Repr

/-! ### Model of the `semver` crate (SemVer 2.0.0 parse and precedence) -/

/-- Prerelease identifier: numeric or alphanumeric (SemVer 2.0.0 item 9). -/
inductive PreId
  | num (n : Nat)
  | alpha (s : List Char)
deriving DecidableEq, Repr

/-- Parsed semantic version; build metadata is validated during parsing and
discarded (it never participates in precedence). -/
structure SemVer where
  major : Nat
  minor : Nat
  patch : Nat
  pre : List PreId
deriving DecidableEq, Repr

/-- Characters allowed in prerelease/build identifiers: ASCII alphanumerics and
hyphen. -/
def isIdentCh (c : Char) : Bool :=
  c.isDigit || c.isAlpha || c = '-'

/-- Splits a list at the first occurrence of a separator, keeping everything
after it (if any) in the second component. -/
def splitFirst (sep : Char) : List Char → List Char × Option (List Char)
  | [] => ([], none)
  | c :: r =>
      if c = sep then ([], some r)
      else
        let (a, b) := splitFirst sep r
        (c :: a, b)

/-- Parses one numeric version component: digits only, no leading zeros, must
fit in a `u64` (the `semver` crate stores components as `u64`). -/
def parseNumericId (s : List Char) : Option Nat :=
  if s.isEmpty then none
  else if ¬ s.all Char.isDigit then none
  else if s.head? = some '0' ∧ s.length > 1 then none
  else if digitsToNat s < U64 then some (digitsToNat s) else none

/-- Parses one prerelease identifier: numeric identifiers may not have leading
zeros and must fit in a `u64`; otherwise alphanumeric. -/
def parsePreId (s : List Char) : Option PreId :=
  if s.isEmpty then none
  else if ¬ s.all isIdentCh then none
  else if s.all Char.isDigit then
    if s.head? = some '0' ∧ s.length > 1 then none
    else if digitsToNat s < U64 then some (.num (digitsToNat s)) else none
  else some (.alpha s)

/-- Modelled from the spec (§4.H): `semver::Version::parse` per SemVer 2.0.0 —
`major.minor.patch`, optional `-prerelease` (dot-separated identifiers),
optional `+build` (validated, ignored). -/
def semverParse (s : List Char) : Option SemVer :=
  let (beforePlus, buildPart) := splitFirst '+' s
  let buildOk : Bool :=
    match buildPart with
    | none => true
    | some b => ¬ b.isEmpty ∧ (b.splitOn '.').all (fun id => ¬ id.isEmpty ∧ id.all isIdentCh)
  if ¬ buildOk then none
  else
    let (core, prePart) := splitFirst '-' beforePlus
    let preIds : Option (List PreId) :=
      match prePart with
      | none => some []
      | some p => (p.splitOn '.').mapM parsePreId
    match core.splitOn '.', preIds with
    | [ma, mi, pa], some pre => do
        let major ← parseNumericId ma
        let minor ← parseNumericId mi
        let patch ← parseNumericId pa
        some ⟨major, minor, patch, pre⟩
    | _, _ => none

/-- Lexicographic extension of a comparator to lists: element-wise comparison,
with a strict prefix ordered first. -/
def lexList (cmp : α → α → Ordering) : List α → List α → Ordering
  | [], [] => .eq
  | [], _ :: _ => .lt
  | _ :: _, [] => .gt
  | a :: xs, b :: ys => (cmp a b).then (lexList cmp xs ys)

/-- Lexicographic comparison of character lists by code point; agrees with Rust
`str::cmp` (byte order equals code-point order under UTF-8). -/
abbrev cmpCharList : List Char → List Char → Ordering := lexList (compareOn Char.toNat)

/-- SemVer precedence of prerelease identifiers: numeric before alphanumeric,
numeric by value, alphanumeric by ASCII order. -/
def cmpPreId : PreId → PreId → Ordering
  | .num a, .num b => compare a b
  | .num _, .alpha _ => .lt
  | .alpha _, .num _ => .gt
  | .alpha a, .alpha b => cmpCharList a b

/-- Lexicographic precedence of prerelease identifier lists; a strict prefix is
smaller. -/
abbrev cmpPreIds : List PreId → List PreId → Ordering := lexList cmpPreId

/-- SemVer precedence of prerelease lists: a release (empty list) outranks any
prerelease. -/
def cmpPre : List PreId → List PreId → Ordering
  | [], [] => .eq
  | [], _ :: _ => .gt
  | _ :: _, [] => .lt
  | a :: xs, b :: ys => cmpPreIds (a :: xs) (b :: ys)

/-- Modelled from the spec (§4.H): `semver::Version::cmp` — compare
`major`, `minor`, `patch` numerically, then prerelease precedence; build
metadata ignored. -/
def semverCmp (a b : SemVer) : Ordering :=
  (compare a.major b.major).then ((compare a.minor b.minor).then
    ((compare a.patch b.patch).then (cmpPre a.pre b.pre)))

/-- The version comparator of `get_with_fallback` (`store.rs:404-410`): semver
comparison when both parse, parse-successful outranks parse-failing, and
lexicographic string comparison when neither parses. -/
def versionOrder (a b : List Char) : Ordering :=
  match semverParse a, semverParse b with
  | some va, some vb => semverCmp va vb
  | some _, none => .gt
  | none, some _ => .lt
  | none, none => cmpCharList a b

/-! ### Mapping store (`src/rust/src/symbolication/store.rs`) -/

/-- Key for looking up mapping files (`store.rs:52`). -/
structure MappingKey where
  platform : Platform
  app_id : List Char
  version : List Char
deriving DecidableEq, Repr

/-- Information about a loaded mapping file (`store.rs:60`); the wall-clock
`loaded_at` timestamp is omitted (not representable and irrelevant to the
claims). Paths are lists of components. -/
structure MappingInfo where
  path : List (List Char)
  platform : Platform
  app_id : List Char
  version : List Char
deriving DecidableEq, Repr

/-- The mapping store (`store.rs`): root directory plus the cache. The
`HashMap<MappingKey, MappingInfo>` is modelled as an association list whose
current binding for a key is the first entry with that key. -/
structure MappingStore where
  root : List (List Char)
  mappings : List (MappingKey × MappingInfo)
deriving DecidableEq, Repr

/-- Embedding of `MappingStore::get` (`store.rs:346`): exact key lookup. -/
def MappingStore.get (store : MappingStore) (platform : Platform)
    (app_id version : List Char) : Option MappingInfo :=
  (store.mappings.find? (fun p =>
    p.1 = { platform := platform, app_id := app_id, version := version })).map (·.2)

/-- One step of Rust `Iterator::max_by`: keep the current maximum only when the
comparator orders it strictly above the candidate (so the later of equal
maxima wins). -/
def maxStep (acc : Option (MappingKey × MappingInfo)) (x : MappingKey × MappingInfo) :
    Option (MappingKey × MappingInfo) :=
  match acc with
  | none => some x
  | some m => if versionOrder m.1.version x.1.version = .gt then some m else some x

/-- The `max_by` call of `get_with_fallback` (`store.rs:403`). -/
def maxByVersion (l : List (MappingKey × MappingInfo)) : Option (MappingKey × MappingInfo) :=
  l.foldl maxStep none

/-- Embedding of `MappingStore::get_with_fallback` (`store.rs:388-413`): exact
match first, else the maximum of the same-`(platform, app_id)` entries under
`versionOrder`. -/
def MappingStore.getWithFallback (store : MappingStore) (platform : Platform)
    (app_id version : List Char) : Option MappingInfo :=
  match store.get platform app_id version with
  | some info => some info
  | none =>
      (maxByVersion (store.mappings.filter (fun p =>
        p.1.platform = platform ∧ p.1.app_id = app_id))).map (·.2)

/-- Embedding of `MappingStore::add_mapping` (`store.rs:435`): `HashMap::insert`
replaces any existing binding of the key. -/
def MappingStore.addMapping (store : MappingStore) (platform : Platform)
    (app_id version : List Char) (path : List (List Char)) : MappingStore :=
  let key : MappingKey := { platform := platform, app_id := app_id, version := version }
  let info : MappingInfo :=
    { path := path, platform := platform, app_id := app_id, version := version }
  { store with mappings := (key, info) :: store.mappings.filter (fun p => p.1 ≠ key) }

/-- Embedding of `MappingStore::validate_path_component` (`store.rs:524-554`). -/
def validatePathComponent (component nm : List Char) : Except SymbolicationError Unit :=
  if component.isEmpty then
    .error (.InvalidPath (nm ++ " cannot be empty".toList))
  else if component = ".".toList ∨ component = "..".toList then
    .error (.InvalidPath (nm ++ " cannot be '.' or '..'".toList))
  else if containsSub "..".toList component then
    .error (.InvalidPath (nm ++ " cannot contain '..'".toList))
  else if component.contains '/' || component.contains '\\' then
    .error (.InvalidPath (nm ++ " cannot contain path separators".toList))
  else .ok ()

/-- Embedding of `MappingStore::save_mapping` (`store.rs:608-640`): validates
the four path components in order before any side effect; on success writes
`<root>/<platform>/<app_id>/<version>/<filename>` — modelled by returning the
target path — and records the mapping in the cache. The byte content is
irrelevant to the resulting state. -/
def MappingStore.saveMapping (store : MappingStore) (platform : Platform)
    (app_id version filename : List Char) (_content : List Nat) :
    Except SymbolicationError (MappingStore × List (List Char)) :=
  match validatePathComponent platform.asStr "platform".toList with
  | .error e => .error e
  | .ok _ =>
  match validatePathComponent app_id "app_id".toList with
  | .error e => .error e
  | .ok _ =>
  match validatePathComponent version "version".toList with
  | .error e => .error e
  | .ok _ =>
  match validatePathComponent filename "filename".toList with
  | .error e => .error e
  | .ok _ =>
    let path := store.root ++ [platform.asStr, app_id, version, filename]
    .ok (store.addMapping platform app_id version path, path)

/-! ### Persistent store (`src/rust/src/storage.rs`) -/

/-- A stored crash report (`storage.rs:11`). -/
structure CrashReport where
  id : Int
  event_id : List Char
  sender_pubkey : List Char
  received_at : Int
  created_at : Int
  app_name : Option (List Char)
  app_version : Option (List Char)
  exception_type : Option (List Char)
  message : Option (List Char)
  stack_trace : Option (List Char)
  raw_content : List Char
  environment : Option (List Char)
  release : Option (List Char)
deriving DecidableEq, Repr

/-- Modelled from the spec (§4.K): the SQLite `crashes` table state — rows plus
the next `AUTOINCREMENT` rowid. -/
structure CrashDb where
  nextId : Int
  rows : List CrashReport
deriving DecidableEq, Repr

/-- Modelled from the spec (§4.K) and the SQL in `storage.rs:61-116`:
`CrashStorage::insert` runs `INSERT OR IGNORE` against `event_id TEXT UNIQUE`;
a conflicting `event_id` affects zero rows and returns `None`, otherwise the
row is appended under the next rowid, which is returned. -/
def CrashDb.insert (db : CrashDb) (report : CrashReport) : CrashDb × Option Int :=
  if db.rows.any (fun row => row.event_id == report.event_id) then (db, none)
  else
    ({ nextId := db.nextId + 1, rows := db.rows ++ [{ report with id := db.nextId }] },
      some db.nextId)

/-! ### Android ProGuard symbolication (`src/rust/src/symbolication/android.rs`) -/

/-- A single line-range mapping entry (`android.rs:36`). -/
structure LineRangeEntry where
  obf_start : Nat
  obf_end : Nat
  orig_start : Nat
  orig_end : Nat
  method_name : List Char
deriving DecidableEq, Repr

/-- Parsed ProGuard mapping entry for a class (`android.rs:51`); the two
`HashMap`s are modelled as association lists (first entry binds). -/
structure ClassMapping where
  original : List Char
  obfuscated : List Char
  method_line_ranges : List (List Char × List LineRangeEntry)
  methods_no_lines : List (List Char × List Char)
  fields : List (List Char × List Char)
deriving DecidableEq, Repr

/-- Parsed ProGuard mapping file (`android.rs:69`). -/
structure ProguardMapping where
  classes : List (List Char × ClassMapping)
deriving DecidableEq, Repr

/-- Association-list lookup standing for `HashMap::get`. -/
def assocFind (k : List Char) (l : List (List Char × β)) : Option β :=
  (l.find? (fun p => p.1 == k)).map (·.2)

/-- Embedding of `ProguardMapping::deobfuscate_frame` (`android.rs:226-268`):
with a line number, the first line-range entry containing it maps the method and
shifts the line (`u32` addition); otherwise the method name falls back to the
no-line table, then to the first line-range entry, then to the obfuscated name,
and the line is preserved unchanged. -/
def ProguardMapping.deobfuscateFrame (m : ProguardMapping) (cls mth : List Char)
    (line : Option Nat) : Option (List Char × List Char × Option Nat) :=
  match assocFind cls m.classes with
  | none => none
  | some cm =>
      let viaRange : Option (List Char × List Char × Option Nat) :=
        match line with
        | none => none
        | some l =>
            match assocFind mth cm.method_line_ranges with
            | none => none
            | some entries =>
                match entries.find? (fun e => decide (e.obf_start ≤ l ∧ l ≤ e.obf_end)) with
                | none => none
                | some e =>
                    some (cm.original, e.method_name,
                      some ((e.orig_start + (l - e.obf_start)) % U32))
      match viaRange with
      | some r => some r
      | none =>
          let origMethod :=
            match assocFind mth cm.methods_no_lines with
            | some nm => nm
            | none =>
                match (assocFind mth cm.method_line_ranges).bind List.head? with
                | some e => e.method_name
                | none => mth
          some (cm.original, origMethod, line)

/-! ## Lemma layer -/

theorem hexDigitVal_hexDigit : ∀ d < 16, hexDigitVal (hexDigit d) = some d := by
  decide

theorem hexDecode_hexEncode {bs : List Nat} (h : ∀ b ∈ bs, b < 256) :
    hexDecode (hexEncode bs) = some bs := by
  induction bs with
  | nil => rfl
  | cons b bs ih =>
      have hb : b < 256 := h b (List.mem_cons_self ..)
      have h1 : b / 16 < 16 := by omega
      have h2 : b % 16 < 16 := by omega
      simp only [hexEncode, hexDecode, hexDigitVal_hexDigit _ h1, hexDigitVal_hexDigit _ h2,
        ih (fun x hx => h x (List.mem_cons_of_mem _ hx)), Option.bind_eq_bind,
        Option.some_bind]
      have : 16 * (b / 16) + b % 16 = b := by omega
      simp [this]

theorem hexEncode_length (bs : List Nat) : (hexEncode bs).length = 2 * bs.length := by
  induction bs with
  | nil => rfl
  | cons b bs ih => simp [hexEncode, ih]; omega

theorem b64Val_b64Char : ∀ s < 64, b64Val (b64Char s) = some s := by
  decide

theorem b64Char_ne_pad : ∀ s < 64, b64Char s ≠ '=' := by
  decide

theorem b64Decode_b64Encode : ∀ {bs : List Nat}, (∀ b ∈ bs, b < 256) →
    b64Decode (b64Encode bs) = some bs
  | [], _ => rfl
  | [b0], h => by
      have hb0 : b0 < 256 := h b0 (by simp)
      have e0 := b64Val_b64Char (b0 / 4) (by omega)
      have e1 := b64Val_b64Char (b0 % 4 * 16) (by omega)
      have h16 : b0 % 4 * 16 % 16 = 0 := by omega
      simp [b64Encode, b64Decode, e0, e1, h16]
      omega
  | [b0, b1], h => by
      have hb0 : b0 < 256 := h b0 (by simp)
      have hb1 : b1 < 256 := h b1 (by simp)
      have e0 := b64Val_b64Char (b0 / 4) (by omega)
      have e1 := b64Val_b64Char (b0 % 4 * 16 + b1 / 16) (by omega)
      have e2 := b64Val_b64Char (b1 % 16 * 4) (by omega)
      have hne : b64Char (b1 % 16 * 4) ≠ '=' := b64Char_ne_pad (b1 % 16 * 4) (by omega)
      have h4 : b1 % 16 * 4 % 4 = 0 := by omega
      simp [b64Encode, b64Decode, e0, e1, e2, hne, h4]
      omega
  | b0 :: b1 :: b2 :: rest, h => by
      have hb0 : b0 < 256 := h b0 (by simp)
      have hb1 : b1 < 256 := h b1 (by simp)
      have hb2 : b2 < 256 := h b2 (by simp)
      have e0 := b64Val_b64Char (b0 / 4) (by omega)
      have e1 := b64Val_b64Char (b0 % 4 * 16 + b1 / 16) (by omega)
      have e2 := b64Val_b64Char (b1 % 16 * 4 + b2 / 64) (by omega)
      have e3 := b64Val_b64Char (b2 % 64) (by omega)
      have ih : b64Decode (b64Encode rest) = some rest :=
        b64Decode_b64Encode (fun x hx => h x (by simp [hx]))
      have hne1 : b64Char (b1 % 16 * 4 + b2 / 64) ≠ '=' :=
        b64Char_ne_pad (b1 % 16 * 4 + b2 / 64) (by omega)
      have hne2 : b64Char (b2 % 64) ≠ '=' := b64Char_ne_pad (b2 % 64) (by omega)
      simp [b64Encode, b64Decode, e0, e1, e2, e3, ih, hne1, hne2]
      omega

theorem xorFrom_xorFrom (key : List Nat) : ∀ (i : Nat) (bs : List Nat),
    xorFrom key i (xorFrom key i bs) = bs := by
  intro i bs
  induction bs generalizing i with
  | nil => rfl
  | cons b bs ih => simp [xorFrom, Nat.xor_cancel_right, ih]

theorem getD_lt_of_forall {key : List Nat} (hkey : ∀ k ∈ key, k < 256) (j : Nat) :
    key.getD j 0 < 256 := by
  rw [List.getD_eq_getElem?_getD]
  cases hg : key[j]? with
  | none => simp
  | some k =>
      have hm : k ∈ key := by
        have := List.getElem?_eq_some.mp hg
        obtain ⟨hlt, rfl⟩ := this
        exact List.getElem_mem ..
      simpa using hkey k hm

theorem xorFrom_lt (key : List Nat) (hkey : ∀ k ∈ key, k < 256) :
    ∀ (i : Nat) (bs : List Nat), (∀ b ∈ bs, b < 256) → ∀ x ∈ xorFrom key i bs, x < 256 := by
  intro i bs
  induction bs generalizing i with
  | nil => intro _; simp [xorFrom]
  | cons b bs ih =>
      intro hbs x hx
      simp only [xorFrom, List.mem_cons] at hx
      rcases hx with hx | hx
      · have hb : b < 256 := hbs b (List.mem_cons_self ..)
        have hk : key.getD (i % 32) 0 < 256 := getD_lt_of_forall hkey _
        subst hx
        have := Nat.xor_lt_two_pow (n := 8) hb hk
        simpa using this
      · exact ih (i + 1) (fun y hy => hbs y (List.mem_cons_of_mem _ hy)) x hx

theorem listChunks_flatten (n : Nat) : ∀ l : List α, (listChunks n l).flatten = l := by
  intro l
  induction l using listChunks.induct n with
  | case1 => simp [listChunks]
  | case2 a l ih => simp [listChunks, ih]

theorem listChunks_length (n : Nat) (hn : 0 < n) :
    ∀ l : List α, (listChunks n l).length = (l.length + n - 1) / n := by
  intro l
  induction l using listChunks.induct n with
  | case1 =>
      simp [listChunks, Nat.div_eq_of_lt (show n - 1 < n by omega)]
  | case2 a l ih =>
      simp only [listChunks, List.length_cons, ih, List.length_drop]
      rcases Nat.lt_or_ge l.length (n - 1) with hlt | hle
      · have h1 : l.length - (n - 1) + n - 1 = n - 1 := by omega
        have h2 : (n - 1) / n = 0 := Nat.div_eq_of_lt (by omega)
        have h3 : l.length + 1 + n - 1 = l.length + n := by omega
        rw [h1, h2, h3, Nat.add_div_right _ hn, Nat.div_eq_of_lt (by omega)]
      · have h1 : l.length - (n - 1) + n - 1 = l.length := by omega
        have h2 : l.length + 1 + n - 1 = l.length + n := by omega
        rw [h1, h2, Nat.add_div_right _ hn]

theorem listChunks_mem_mem {n : Nat} {l piece : List α} (hp : piece ∈ listChunks n l)
    {b : α} (hb : b ∈ piece) : b ∈ l := by
  rw [← listChunks_flatten n l]
  exact List.mem_flatten.mpr ⟨piece, hp, hb⟩

theorem beBytes_length (k n : Nat) : (beBytes k n).length = k := by
  induction k generalizing n with
  | zero => rfl
  | succ k ih => simp [beBytes, ih]

theorem beBytes_lt (k n : Nat) : ∀ b ∈ beBytes k n, b < 256 := by
  induction k generalizing n with
  | zero => simp [beBytes]
  | succ k ih =>
      intro b hb
      simp only [beBytes, List.mem_append, List.mem_singleton] at hb
      rcases hb with hb | hb
      · exact ih _ b hb
      · omega

theorem sha256Round_length {state : List Nat} (h : state.length = 8) (kw : Nat) :
    (sha256Round state kw).length = 8 := by
  match state, h with
  | [a, b, c, d, e, f, g, h], _ => rfl

theorem foldl_sha256Round_length {h : List Nat} (hl : h.length = 8) (kw : List Nat) :
    (kw.foldl sha256Round h).length = 8 := by
  induction kw generalizing h with
  | nil => simpa
  | cons k kw ih => exact ih (sha256Round_length hl k)

theorem sha256Block_length {h : List Nat} (hl : h.length = 8) (block : List Nat) :
    (sha256Block h block).length = 8 := by
  unfold sha256Block
  have hf := foldl_sha256Round_length hl
    (((sha256K.zip (sha256Schedule (bytesToWords block) 48))).map (fun p => (p.1 + p.2) % U32))
  simp only [List.length_map, List.length_zip]
  omega

theorem sha256Blocks_length : ∀ (l h : List Nat), h.length = 8 → (sha256Blocks h l).length = 8
  | [], h, hl => by simpa [sha256Blocks]
  | b :: bs, h, hl => by
      rw [sha256Blocks]
      exact sha256Blocks_length _ _ (sha256Block_length hl _)
  termination_by l => l.length
  decreasing_by simp; omega

theorem flatten_map_beBytes_length (l : List Nat) :
    ((l.map (beBytes 4)).flatten).length = 4 * l.length := by
  induction l with
  | nil => rfl
  | cons w l ih => simp [beBytes_length, ih]; omega

theorem sha256_length (msg : List Nat) : (sha256 msg).length = 32 := by
  unfold sha256
  rw [flatten_map_beBytes_length,
    sha256Blocks_length _ _ (by rfl)]

theorem sha256_lt (msg : List Nat) : ∀ b ∈ sha256 msg, b < 256 := by
  unfold sha256
  intro b hb
  rw [List.mem_flatten] at hb
  obtain ⟨l, hl, hbl⟩ := hb
  rw [List.mem_map] at hl
  obtain ⟨w, -, rfl⟩ := hl
  exact beBytes_lt 4 w b hbl

theorem decodeChunk_mkChunk (i : Nat) (piece : List Nat) (hb : ∀ b ∈ piece, b < 256) :
    decodeChunk (mkChunk (i, piece)) = .ok (sha256 piece, piece) := by
  have hkey := sha256_lt piece
  have hdec : hexDecode (hexEncode (sha256 piece)) = some (sha256 piece) :=
    hexDecode_hexEncode hkey
  have hcipher : ∀ x ∈ xorFrom (sha256 piece) 0 piece, x < 256 :=
    xorFrom_lt (sha256 piece) hkey 0 piece hb
  have hb64 : b64Decode (b64Encode (xorFrom (sha256 piece) 0 piece)) =
      some (xorFrom (sha256 piece) 0 piece) := b64Decode_b64Encode hcipher
  simp [decodeChunk, mkChunk, encryptChk, hdec, sha256_length, hb64, decryptChk,
    xorFrom_xorFrom]

theorem decodeChunks_enumFrom : ∀ (pieces : List (List Nat)) (s : Nat),
    (∀ piece ∈ pieces, ∀ b ∈ piece, b < 256) →
    decodeChunks ((List.enumFrom s pieces).map mkChunk) =
      .ok (pieces.map sha256, pieces.flatten) := by
  intro pieces
  induction pieces with
  | nil => intro s _; rfl
  | cons p ps ih =>
      intro s h
      have hp := decodeChunk_mkChunk s p (h p (List.mem_cons_self ..))
      have hps := ih (s + 1) (fun q hq => h q (List.mem_cons_of_mem _ hq))
      simp [List.enumFrom, decodeChunks, hp, hps, Bind.bind, Except.bind]

theorem pairwise_fst_lt_enumFrom (l : List α) :
    ∀ s : Nat, List.Pairwise (fun p q : Nat × α => p.1 < q.1) (List.enumFrom s l) := by
  induction l with
  | nil => intro s; simp
  | cons a l ih =>
      intro s
      simp only [List.enumFrom]
      refine List.Pairwise.cons ?_ (ih (s + 1))
      intro q hq
      have := (List.mem_enumFrom hq).1
      simpa using this

theorem enumFrom_fst_lt {l : List α} {s : Nat} {p : Nat × α} (hp : p ∈ List.enumFrom s l) :
    p.1 < s + l.length := by
  obtain ⟨-, h, -⟩ := List.mem_enumFrom (x := p.2) (by simpa using hp)
  simpa using h

theorem sortChunks_mapped_enum {pieces : List (List Nat)} (hlen : pieces.length ≤ U32) :
    sortChunks (pieces.enum.map mkChunk) = pieces.enum.map mkChunk := by
  apply List.mergeSort_of_sorted
  rw [List.pairwise_map]
  have h1 := pairwise_fst_lt_enumFrom pieces 0
  have : List.Pairwise
      (fun p q : Nat × List Nat => (mkChunk p).index ≤ (mkChunk q).index) pieces.enum := by
    refine h1.imp_of_mem ?_
    intro p q hp hq hlt
    have hpb : p.1 < U32 := by
      have := enumFrom_fst_lt (l := pieces) (s := 0) hp
      omega
    have hqb : q.1 < U32 := by
      have := enumFrom_fst_lt (l := pieces) (s := 0) hq
      omega
    simp only [mkChunk, Nat.mod_eq_of_lt hpb, Nat.mod_eq_of_lt hqb]
    omega
  refine this.imp ?_
  intro p q h
  simpa using h

theorem checkIndicesFrom_ok : ∀ (l : List ChunkPayload) (s : Nat),
    (∀ j (h : j < l.length), (l.get ⟨j, h⟩).index = (s + j) % U32) →
    checkIndicesFrom s l = .ok () := by
  intro l
  induction l with
  | nil => intro s _; rfl
  | cons c rest ih =>
      intro s h
      have h0 := h 0 (by simp)
      simp only [List.get, Nat.add_zero] at h0
      unfold checkIndicesFrom
      rw [if_neg (by simp [h0])]
      refine ih (s + 1) ?_
      intro j hj
      have := h (j + 1) (by simpa using Nat.succ_lt_succ hj)
      simp only [List.get] at this
      rw [show s + 1 + j = s + (j + 1) by omega]
      exact this

theorem getElem_enum_map_mkChunk (pieces : List (List Nat)) (j : Nat)
    (h : j < (pieces.enum.map mkChunk).length) :
    ((pieces.enum.map mkChunk).get ⟨j, h⟩) =
      mkChunk (j, pieces.get ⟨j, by simpa [List.enum_length] using h⟩) := by
  have hj : j < pieces.enum.length := by simpa using h
  simp [List.getElem_map, List.getElem_enum]

/-- Abbreviation for the chunk list produced by `chunk_payload` on input `P`
(used to state facts about its output). -/
def chunkChunksOf (P : List Nat) : List ChunkPayload :=
  (listChunks MAX_CHUNK_SIZE P).enum.map mkChunk

/-- Abbreviation for the manifest produced by `chunk_payload` on input `P`. -/
def chunkManifestOf (P : List Nat) : ManifestPayload :=
  { v := 1
    root_hash := hexEncode (sha256 (((listChunks MAX_CHUNK_SIZE P).map
      (fun w => (encryptChk w).2)).flatten))
    total_size := P.length % U64
    chunk_count := (chunkChunksOf P).length % U32
    chunk_ids := []
    chunk_relays := none }

theorem chunkManifestOf_chunk_count (P : List Nat) :
    (chunkManifestOf P).chunk_count = (chunkChunksOf P).length % U32 := rfl

theorem chunkPayload_eq (P : List Nat) (hlen : DIRECT_SIZE_THRESHOLD < P.length) :
    chunkPayload P = .ok ⟨chunkManifestOf P, chunkChunksOf P⟩ := by
  unfold chunkPayload chunkManifestOf chunkChunksOf
  rw [if_neg (by omega)]

theorem chunkChunksOf_length (P : List Nat) :
    (chunkChunksOf P).length = (P.length + MAX_CHUNK_SIZE - 1) / MAX_CHUNK_SIZE := by
  unfold chunkChunksOf
  rw [List.length_map, List.enum_length]
  exact listChunks_length MAX_CHUNK_SIZE (by norm_num [MAX_CHUNK_SIZE]) P

theorem reassemble_chunkPayload {P : List Nat} (hb : ∀ b ∈ P, b < 256)
    (hlen : DIRECT_SIZE_THRESHOLD < P.length)
    (hub : P.length ≤ MAX_CHUNK_SIZE * (U32 - 1)) :
    reassemblePayload (chunkManifestOf P) (chunkChunksOf P) = .ok P := by
  have hcount : (chunkChunksOf P).length = (P.length + MAX_CHUNK_SIZE - 1) / MAX_CHUNK_SIZE :=
    chunkChunksOf_length P
  have hcb : (chunkChunksOf P).length ≤ U32 - 1 := by
    rw [hcount]
    simp only [MAX_CHUNK_SIZE, U32] at hub ⊢
    omega
  have hmod : (chunkChunksOf P).length % U32 = (chunkChunksOf P).length :=
    Nat.mod_eq_of_lt (by simp only [U32] at hcb ⊢; omega)
  have hplen : (listChunks MAX_CHUNK_SIZE P).length ≤ U32 := by
    have : (chunkChunksOf P).length = (listChunks MAX_CHUNK_SIZE P).length := by
      simp [chunkChunksOf, List.enum_length]
    omega
  have hsort : sortChunks (chunkChunksOf P) = chunkChunksOf P :=
    sortChunks_mapped_enum hplen
  have hcheck : checkIndicesFrom 0 (chunkChunksOf P) = .ok () := by
    refine checkIndicesFrom_ok (chunkChunksOf P) 0 ?_
    intro j hj
    show ((((listChunks MAX_CHUNK_SIZE P).enum.map mkChunk)).get ⟨j, hj⟩).index = (0 + j) % U32
    rw [getElem_enum_map_mkChunk]
    simp [mkChunk]
  have hdecode : decodeChunks (chunkChunksOf P) =
      .ok ((listChunks MAX_CHUNK_SIZE P).map sha256, P) := by
    rw [show chunkChunksOf P = (List.enumFrom 0 (listChunks MAX_CHUNK_SIZE P)).map mkChunk
      from rfl]
    rw [decodeChunks_enumFrom (listChunks MAX_CHUNK_SIZE P) 0
      (fun piece hp b hbp => hb b (listChunks_mem_mem hp hbp))]
    rw [listChunks_flatten]
  have hroot : ¬(hexEncode (sha256 (((listChunks MAX_CHUNK_SIZE P).map sha256).flatten)) ≠
      (chunkManifestOf P).root_hash) := by
    simp only [chunkManifestOf, encryptChk]
    intro hcon
    exact hcon rfl
  unfold reassemblePayload
  rw [if_neg (by simp [chunkManifestOf, hmod])]
  simp only [hsort, hcheck, hdecode]
  rw [if_neg hroot]

theorem reassemblePayload_count_mismatch {m : ManifestPayload} {C : List ChunkPayload}
    (h : C.length ≠ m.chunk_count) :
    reassemblePayload m C = .error (.InvalidManifest (invalidManifestMsg m.chunk_count C.length)) := by
  unfold reassemblePayload
  rw [if_pos h]

theorem reassemblePayload_checkIndices_error {m : ManifestPayload} {C : List ChunkPayload}
    {e : ChunkingError} (hc : C.length = m.chunk_count)
    (he : checkIndicesFrom 0 (sortChunks C) = .error e) :
    reassemblePayload m C = .error e := by
  unfold reassemblePayload
  rw [if_neg (by omega)]
  simp only [he]

theorem reassemblePayload_root_mismatch {m : ManifestPayload} {C : List ChunkPayload}
    {keys : List (List Nat)} {out : List Nat} (hc : C.length = m.chunk_count)
    (hidx : checkIndicesFrom 0 (sortChunks C) = .ok ())
    (hdec : decodeChunks (sortChunks C) = .ok (keys, out))
    (hroot : hexEncode (sha256 keys.flatten) ≠ m.root_hash) :
    reassemblePayload m C = .error .InvalidRootHash := by
  unfold reassemblePayload
  rw [if_neg (by omega)]
  simp only [hidx, hdec]
  rw [if_pos hroot]

theorem checkIndicesFrom_error : ∀ (l : List ChunkPayload) (s i : Nat) (h : i < l.length),
    (l.get ⟨i, h⟩).index ≠ (s + i) % U32 →
    (∀ j (hj : j < i), (l.get ⟨j, Nat.lt_trans hj h⟩).index = (s + j) % U32) →
    checkIndicesFrom s l = .error (.MissingChunk ((s + i) % U32)) := by
  intro l
  induction l with
  | nil => intro s i h; exact absurd h (by simp)
  | cons c rest ih =>
      intro s i h hbad hgood
      cases i with
      | zero =>
          unfold checkIndicesFrom
          rw [if_pos (by simpa using hbad)]
          simp
      | succ i =>
          have hc : c.index = s % U32 := by
            have := hgood 0 (Nat.succ_pos i)
            simpa using this
          unfold checkIndicesFrom
          rw [if_neg (by simp [hc])]
          have hrest : i < rest.length := by simpa using h
          have := ih (s + 1) i hrest
            (by
              rw [show s + 1 + i = s + (i + 1) by omega]
              exact hbad)
            (by
              intro j hj
              rw [show s + 1 + j = s + (j + 1) by omega]
              exact hgood (j + 1) (by omega))
          rw [this, show s + 1 + i = s + (i + 1) by omega]

/-- Helper for stating concrete manifests in witnesses. -/
def mkManifest (count : Nat) (root : List Char) (ids : List (List Char)) : ManifestPayload :=
  { v := 1, root_hash := root, total_size := 0, chunk_count := count, chunk_ids := ids,
    chunk_relays := none }

theorem sortChunks_singleton (c : ChunkPayload) : sortChunks [c] = [c] :=
  List.mergeSort_of_sorted (by simp)

theorem sortChunks_nil : sortChunks [] = [] :=
  List.mergeSort_nil

/-! ## Claim theorems -/

/-- C1 (corrected): for every byte string `P` with `|P| > 50 KiB` *and at most*
`48 KiB * (2^32 - 1)` bytes (so that the `u32` chunk count does not wrap),
`chunk_payload` succeeds, reassembly of its output returns exactly `P`, the
manifest's `total_size` is `|P|`, and the number of chunks is
`ceil(|P| / 48 KiB)`. -/
theorem C1_chunker_laws (P : List Nat) (hbytes : ∀ b ∈ P, b < 256)
    (hlen : 50 * 1024 < P.length) (hub : P.length ≤ 48 * 1024 * (4294967296 - 1)) :
    ∃ r, chunkPayload P = .ok r ∧
      reassemblePayload r.manifest r.chunks = .ok P ∧
      r.manifest.total_size = P.length ∧
      r.chunks.length = (P.length + 48 * 1024 - 1) / (48 * 1024) := by
  refine ⟨_, chunkPayload_eq P hlen, reassemble_chunkPayload hbytes hlen hub, ?_, ?_⟩
  · show P.length % U64 = P.length
    apply Nat.mod_eq_of_lt
    simp only [U64]
    omega
  · exact chunkChunksOf_length P

/-- Witness for C1: the amended statement applied to the 51201-byte zero
payload. -/
theorem C1_chunker_laws_witness :
    (∀ b ∈ (List.replicate 51201 0 : List Nat), b < 256) ∧
    50 * 1024 < (List.replicate 51201 (0 : Nat)).length ∧
    (List.replicate 51201 (0 : Nat)).length ≤ 48 * 1024 * (4294967296 - 1) ∧
    ∃ r, chunkPayload (List.replicate 51201 (0 : Nat)) = .ok r ∧
      reassemblePayload r.manifest r.chunks = .ok (List.replicate 51201 (0 : Nat)) ∧
      r.manifest.total_size = (List.replicate 51201 (0 : Nat)).length ∧
      r.chunks.length = ((List.replicate 51201 (0 : Nat)).length + 48 * 1024 - 1) / (48 * 1024) :=
  ⟨fun b hb => by rw [List.eq_of_mem_replicate hb]; omega,
   by rw [List.length_replicate]; omega,
   by rw [List.length_replicate]; omega,
   C1_chunker_laws _ (fun b hb => by rw [List.eq_of_mem_replicate hb]; omega)
     (by rw [List.length_replicate]; omega) (by rw [List.length_replicate]; omega)⟩

/-- Counterexample to C1 as stated: at the 48 KiB * 2^32 byte zero payload the
chunk count (`chunks.len() as u32`) wraps to zero, so reassembly of
`chunk_payload`'s own output fails its chunk-count check instead of returning
the payload. -/
theorem C1_counterexample :
    50 * 1024 < (List.replicate (48 * 1024 * 4294967296) (0 : Nat)).length ∧
    (∀ b ∈ (List.replicate (48 * 1024 * 4294967296) (0 : Nat) : List Nat), b < 256) ∧
    ∀ r, chunkPayload (List.replicate (48 * 1024 * 4294967296) (0 : Nat)) = .ok r →
      reassemblePayload r.manifest r.chunks ≠
        .ok (List.replicate (48 * 1024 * 4294967296) (0 : Nat)) := by
  refine ⟨by rw [List.length_replicate]; omega,
    fun b hb => by rw [List.eq_of_mem_replicate hb]; omega, ?_⟩
  intro r hr
  rw [chunkPayload_eq _
    (by simp only [DIRECT_SIZE_THRESHOLD, List.length_replicate]; omega)] at hr
  injection hr with hr
  subst hr
  have hlen : (chunkChunksOf (List.replicate (48 * 1024 * 4294967296) (0 : Nat))).length =
      4294967296 := by
    rw [chunkChunksOf_length, List.length_replicate]
    simp only [MAX_CHUNK_SIZE]
  have hcnt : (chunkManifestOf (List.replicate (48 * 1024 * 4294967296) (0 : Nat))).chunk_count
      = 0 := by
    rw [chunkManifestOf_chunk_count, hlen]
    simp [U32]
  rw [reassemblePayload_count_mismatch (by rw [hlen, hcnt]; omega)]
  exact fun hcon => Except.noConfusion hcon

/-- C3 (on the `chunk_payload` side): every successful chunking emits a manifest
whose optional `chunk_relays` field is `None` and whose `chunk_ids` list is
empty, both to be filled by the sender — the field the receiver later reads at
`main.rs:930`. -/
theorem C3_manifest_chunk_relays (P : List Nat) (h : 50 * 1024 < P.length) :
    ∃ r, chunkPayload P = .ok r ∧ r.manifest.chunk_relays = none ∧
      r.manifest.chunk_ids = [] :=
  ⟨_, chunkPayload_eq P h, rfl, rfl⟩

/-- Witness for C3 at the 51201-byte zero payload. -/
theorem C3_manifest_chunk_relays_witness :
    50 * 1024 < (List.replicate 51201 (0 : Nat)).length ∧
    ∃ r, chunkPayload (List.replicate 51201 (0 : Nat)) = .ok r ∧
      r.manifest.chunk_relays = none ∧ r.manifest.chunk_ids = [] :=
  ⟨by rw [List.length_replicate]; omega,
   C3_manifest_chunk_relays _ (by rw [List.length_replicate]; omega)⟩

/-- C4 (confirmed): `reassemble_payload` fails with `InvalidManifest` on a chunk
count mismatch; with `MissingChunk i` when, after the stable sort by index, the
first offending position `i` holds an index other than `i as u32`; and with
`InvalidRootHash` when the indices check out, every chunk decodes, and the hex
SHA-256 of the concatenated keys differs from the manifest's `root_hash`. -/
theorem C4_reassembly_errors :
    (∀ (m : ManifestPayload) (C : List ChunkPayload), C.length ≠ m.chunk_count →
      reassemblePayload m C =
        .error (.InvalidManifest (invalidManifestMsg m.chunk_count C.length))) ∧
    (∀ (m : ManifestPayload) (C sorted : List ChunkPayload) (i : Nat) (h : i < sorted.length),
      sortChunks C = sorted → C.length = m.chunk_count →
      (sorted.get ⟨i, h⟩).index ≠ i % U32 →
      (∀ j (hj : j < i), (sorted.get ⟨j, Nat.lt_trans hj h⟩).index = j % U32) →
      reassemblePayload m C = .error (.MissingChunk (i % U32))) ∧
    (∀ (m : ManifestPayload) (C sorted : List ChunkPayload) (keys : List (List Nat))
      (out : List Nat),
      sortChunks C = sorted → C.length = m.chunk_count →
      checkIndicesFrom 0 sorted = .ok () →
      decodeChunks sorted = .ok (keys, out) →
      hexEncode (sha256 keys.flatten) ≠ m.root_hash →
      reassemblePayload m C = .error .InvalidRootHash) := by
  refine ⟨fun m C h => reassemblePayload_count_mismatch h, ?_, ?_⟩
  · intro m C sorted i h hs hc hbad hgood
    subst hs
    refine reassemblePayload_checkIndices_error hc ?_
    have := checkIndicesFrom_error (sortChunks C) 0 i h
      (by simpa using hbad) (by simpa using hgood)
    simpa using this
  · intro m C sorted keys out hs hc hidx hdec hroot
    subst hs
    exact reassemblePayload_root_mismatch hc hidx hdec hroot

/-- Witness for C4: the three error paths at concrete inputs — an empty chunk
list against `chunk_count = 5`; a single chunk with index 5 against
`chunk_count = 1`; and an empty chunk list whose manifest's root hash cannot be
the hash of no keys. -/
theorem C4_reassembly_errors_witness :
    ((0 : Nat) ≠ 5 ∧
      reassemblePayload (mkManifest 5 [] []) [] =
        .error (.InvalidManifest (invalidManifestMsg 5 0))) ∧
    (reassemblePayload (mkManifest 1 [] []) [{ v := 1, index := 5, hash := [], data := [] }] =
        .error (.MissingChunk (0 % U32))) ∧
    (hexEncode (sha256 ([] : List (List Nat)).flatten) ≠ hexEncode (sha256 []) ++ ['!'] ∧
      reassemblePayload (mkManifest 0 (hexEncode (sha256 []) ++ ['!']) []) [] =
        .error .InvalidRootHash) := by
  refine ⟨⟨by decide, C4_reassembly_errors.1 _ _ (by decide)⟩, ?_, ?_⟩
  · exact C4_reassembly_errors.2.1 _ [{ v := 1, index := 5, hash := [], data := [] }]
      [{ v := 1, index := 5, hash := [], data := [] }] 0 (by decide)
      (sortChunks_singleton _) (by decide) (by decide) (fun j hj => absurd hj (by omega))
  · have hne : hexEncode (sha256 ([] : List (List Nat)).flatten) ≠
        hexEncode (sha256 []) ++ ['!'] := by
      intro h
      have := congrArg List.length h
      simp at this
    exact ⟨hne, C4_reassembly_errors.2.2 _ [] [] [] [] sortChunks_nil (by decide) rfl rfl hne⟩

/-- C5 (confirmed): `TransportKind::for_size` returns `Direct` exactly for sizes
up to 50 KiB, `chunk_payload` rejects every payload of at most 50 KiB with
`PayloadTooSmall`, and a payload of exactly 51201 bytes produces at least two
chunks. -/
theorem C5_transport_threshold :
    (∀ n : Nat, TransportKind.for_size n = .Direct ↔ n ≤ 50 * 1024) ∧
    (∀ data : List Nat, data.length ≤ 50 * 1024 →
      chunkPayload data = .error .PayloadTooSmall) ∧
    (∀ data : List Nat, data.length = 51201 →
      ∃ r, chunkPayload data = .ok r ∧ 2 ≤ r.chunks.length) := by
  refine ⟨?_, ?_, ?_⟩
  · intro n
    unfold TransportKind.for_size
    split
    · simpa
    · simpa using (by assumption : ¬ n ≤ DIRECT_SIZE_THRESHOLD)
  · intro data h
    unfold chunkPayload
    rw [if_pos (show data.length ≤ DIRECT_SIZE_THRESHOLD from h)]
  · intro data h
    refine ⟨_, chunkPayload_eq data (by simp only [DIRECT_SIZE_THRESHOLD]; omega), ?_⟩
    show 2 ≤ (chunkChunksOf data).length
    rw [chunkChunksOf_length, h]
    decide

/-- Witness for C5 at concrete sizes 1024, a 100-byte payload, and a 51201-byte
payload. -/
theorem C5_transport_threshold_witness :
    (TransportKind.for_size 1024 = .Direct ↔ (1024 : Nat) ≤ 50 * 1024) ∧
    ((List.replicate 100 (0 : Nat)).length ≤ 50 * 1024 ∧
      chunkPayload (List.replicate 100 (0 : Nat)) = .error .PayloadTooSmall) ∧
    ((List.replicate 51201 (0 : Nat)).length = 51201 ∧
      ∃ r, chunkPayload (List.replicate 51201 (0 : Nat)) = .ok r ∧ 2 ≤ r.chunks.length) :=
  ⟨C5_transport_threshold.1 1024,
   ⟨by rw [List.length_replicate]; omega,
    C5_transport_threshold.2.1 _ (by rw [List.length_replicate]; omega)⟩,
   ⟨by rw [List.length_replicate],
    C5_transport_threshold.2.2 _ (by rw [List.length_replicate])⟩⟩

/-- C10 (corrected): `reassemble_payload` never reads the manifest's
`chunk_ids` — any two manifests agreeing on `chunk_count` and `root_hash` give
identical results on every chunk list — and `chunk_payload` emits an empty
`chunk_ids` list; reassembly of its own output succeeds for payloads of at most
`48 KiB * (2^32 - 1)` bytes (the `u32` chunk-count bound). -/
theorem C10_chunk_ids_independence :
    (∀ (m₁ m₂ : ManifestPayload) (C : List ChunkPayload),
      m₁.chunk_count = m₂.chunk_count → m₁.root_hash = m₂.root_hash →
      reassemblePayload m₁ C = reassemblePayload m₂ C) ∧
    (∀ P : List Nat, (∀ b ∈ P, b < 256) → 50 * 1024 < P.length →
      P.length ≤ 48 * 1024 * (4294967296 - 1) →
      ∃ r, chunkPayload P = .ok r ∧ r.manifest.chunk_ids = [] ∧
        reassemblePayload r.manifest r.chunks = .ok P) := by
  constructor
  · intro m₁ m₂ C h1 h2
    unfold reassemblePayload
    rw [h1, h2]
  · intro P hb hlen hub
    exact ⟨_, chunkPayload_eq P hlen, rfl, reassemble_chunkPayload hb hlen hub⟩

/-- Witness for C10: two manifests differing only in `chunk_ids`, and the
51201-byte zero payload. -/
theorem C10_chunk_ids_independence_witness :
    (reassemblePayload (mkManifest 3 [] []) [] =
      reassemblePayload (mkManifest 3 [] [['a']]) []) ∧
    ∃ r, chunkPayload (List.replicate 51201 (0 : Nat)) = .ok r ∧
      r.manifest.chunk_ids = [] ∧
      reassemblePayload r.manifest r.chunks = .ok (List.replicate 51201 (0 : Nat)) :=
  ⟨C10_chunk_ids_independence.1 _ _ [] rfl rfl,
   C10_chunk_ids_independence.2 _ (fun b hb => by rw [List.eq_of_mem_replicate hb]; omega)
     (by rw [List.length_replicate]; omega) (by rw [List.length_replicate]; omega)⟩

/-- Counterexample to C10 as stated: one chunk past the 2^32 wrap the manifest's
`chunk_count` collapses to 1, so reassembly of `chunk_payload`'s own output
fails even though `chunk_ids` is empty. -/
theorem C10_counterexample :
    ∃ r, chunkPayload (List.replicate (48 * 1024 * 4294967297) (0 : Nat)) = .ok r ∧
      r.manifest.chunk_ids = [] ∧
      ∀ out, reassemblePayload r.manifest r.chunks ≠ .ok out := by
  refine ⟨_, chunkPayload_eq _
    (by simp only [DIRECT_SIZE_THRESHOLD, List.length_replicate]; omega), rfl, ?_⟩
  intro out
  have hlen : (chunkChunksOf (List.replicate (48 * 1024 * 4294967297) (0 : Nat))).length =
      4294967297 := by
    rw [chunkChunksOf_length, List.length_replicate]
    simp only [MAX_CHUNK_SIZE]
  have hcnt : (chunkManifestOf (List.replicate (48 * 1024 * 4294967297) (0 : Nat))).chunk_count
      = 1 := by
    rw [chunkManifestOf_chunk_count, hlen]
    simp [U32]
  rw [reassemblePayload_count_mismatch (by rw [hlen, hcnt]; omega)]
  exact fun hcon => Except.noConfusion hcon

/-- C2 (corrected): `decompress_payload` returns the input unchanged when
structural envelope detection fails or when the envelope fails to parse; but
once an envelope parses, a base64, gzip, or UTF-8 failure is returned as an
error (`?` propagation), not as the original string. -/
theorem C2_decompress_failure_paths :
    (∀ s : List Char,
      ¬((trimChars s).head? = some '{' ∧
        containsSub "\"compression\"".toList (trimChars s) = true) →
      decompressPayload s = .ok s) ∧
    (∀ s : List Char,
      parseEnvelope (trimChars s) = none →
      decompressPayload s = .ok s) ∧
    (∀ (s : List Char) (env : CompressedEnvelope),
      ((trimChars s).head? = some '{' ∧
        containsSub "\"compression\"".toList (trimChars s) = true) →
      parseEnvelope (trimChars s) = some env →
      b64Decode env.payload = none →
      decompressPayload s = .error (.Base64DecodeFailed [])) ∧
    (∀ (s : List Char) (env : CompressedEnvelope) (bs : List Nat),
      ((trimChars s).head? = some '{' ∧
        containsSub "\"compression\"".toList (trimChars s) = true) →
      parseEnvelope (trimChars s) = some env →
      b64Decode env.payload = some bs →
      gzipDecompress bs = none →
      decompressPayload s = .error (.CompressionFailed [])) ∧
    (∀ (s : List Char) (env : CompressedEnvelope) (bs bytes : List Nat),
      ((trimChars s).head? = some '{' ∧
        containsSub "\"compression\"".toList (trimChars s) = true) →
      parseEnvelope (trimChars s) = some env →
      b64Decode env.payload = some bs →
      gzipDecompress bs = some bytes →
      utf8Decode bytes = none →
      decompressPayload s = .error (.Utf8Failed [])) := by
  refine ⟨?_, ?_, ?_, ?_, ?_⟩
  · intro s h
    simp only [decompressPayload]
    rw [if_pos h]
  · intro s hparse
    simp only [decompressPayload]
    by_cases hdet : (trimChars s).head? = some '{' ∧
        containsSub "\"compression\"".toList (trimChars s) = true
    · rw [if_neg (not_not_intro hdet), hparse]
    · rw [if_pos hdet]
  · intro s env hdet hparse hb64
    simp only [decompressPayload]
    rw [if_neg (not_not_intro hdet)]
    simp only [hparse, hb64]
  · intro s env bs hdet hparse hb64 hgz
    simp only [decompressPayload]
    rw [if_neg (not_not_intro hdet)]
    simp only [hparse, hb64, hgz]
  · intro s env bs bytes hdet hparse hb64 hgz hutf
    simp only [decompressPayload]
    rw [if_neg (not_not_intro hdet)]
    simp only [hparse, hb64, hgz, hutf]

/-- Witness for C2: plain text passes through unchanged; a well-formed envelope
with invalid base64 payload yields an error. -/
theorem C2_decompress_failure_paths_witness :
    (¬((trimChars "hello".toList).head? = some '{' ∧
        containsSub "\"compression\"".toList (trimChars "hello".toList) = true) ∧
      decompressPayload "hello".toList = .ok "hello".toList) ∧
    (parseEnvelope
        (trimChars "\x7b\"v\":1,\"compression\":\"gzip\",\"payload\":\"!!!\"\x7d".toList) =
        some ⟨1, "gzip".toList, "!!!".toList⟩ ∧
      b64Decode "!!!".toList = none ∧
      decompressPayload "\x7b\"v\":1,\"compression\":\"gzip\",\"payload\":\"!!!\"\x7d".toList =
        .error (.Base64DecodeFailed [])) := by
  refine ⟨⟨by decide, C2_decompress_failure_paths.1 _ (by decide)⟩, rfl, rfl, ?_⟩
  exact C2_decompress_failure_paths.2.2.1 _ ⟨1, "gzip".toList, "!!!".toList⟩
    (by decide) rfl rfl

/-- Counterexample to C2 as stated: on a syntactically valid envelope whose
payload is not base64, `decompress_payload` returns an error rather than the
original string. -/
theorem C2_counterexample :
    decompressPayload "\x7b\"v\":1,\"compression\":\"gzip\",\"payload\":\"!!!\"\x7d".toList =
      .error (.Base64DecodeFailed []) ∧
    ∀ t, decompressPayload "\x7b\"v\":1,\"compression\":\"gzip\",\"payload\":\"!!!\"\x7d".toList ≠
      .ok t := by
  have h : decompressPayload "\x7b\"v\":1,\"compression\":\"gzip\",\"payload\":\"!!!\"\x7d".toList =
      .error (.Base64DecodeFailed []) := by rfl
  exact ⟨h, fun t hcon => Except.noConfusion ((h ▸ hcon : Except.error _ = Except.ok t))⟩

/-- The invalidity condition on one path component, as the claim states it:
empty, exactly `.` or `..`, containing the substring `..`, or containing a
path separator. -/
def componentInvalid (c : List Char) : Prop :=
  c = [] ∨ c = ".".toList ∨ c = "..".toList ∨ containsSub "..".toList c = true ∨
    '/' ∈ c ∨ '\\' ∈ c

instance (c : List Char) : Decidable (componentInvalid c) := by
  unfold componentInvalid
  infer_instance

theorem validatePathComponent_cases (c nm : List Char) :
    (componentInvalid c → ∃ msg, validatePathComponent c nm = .error (.InvalidPath msg)) ∧
    (¬ componentInvalid c → validatePathComponent c nm = .ok ()) := by
  unfold validatePathComponent componentInvalid
  constructor
  · intro h
    split_ifs with h1 h2 h3 h4
    · exact ⟨_, rfl⟩
    · exact ⟨_, rfl⟩
    · exact ⟨_, rfl⟩
    · exact ⟨_, rfl⟩
    · exfalso
      simp only [List.isEmpty_iff] at h1
      rcases h with h | h | h | h | h | h
      · exact h1 h
      · exact h2 (Or.inl h)
      · exact h2 (Or.inr h)
      · exact h3 h
      · exact h4 (by simp [List.contains, List.elem_iff, h])
      · exact h4 (by simp [List.contains, List.elem_iff, h])
  · intro h
    split_ifs with h1 h2 h3 h4
    · exact absurd (Or.inl (List.isEmpty_iff.mp h1)) h
    · rcases h2 with h2 | h2
      · exact absurd (Or.inr (Or.inl h2)) h
      · exact absurd (Or.inr (Or.inr (Or.inl h2))) h
    · exact absurd (Or.inr (Or.inr (Or.inr (Or.inl h3)))) h
    · rcases (by simpa [List.contains, List.elem_iff] using h4 : '/' ∈ c ∨ '\\' ∈ c) with h4 | h4
      · exact absurd (Or.inr (Or.inr (Or.inr (Or.inr (Or.inl h4))))) h
      · exact absurd (Or.inr (Or.inr (Or.inr (Or.inr (Or.inr h4))))) h
    · rfl

/-- C7 (confirmed): `save_mapping` fails with `InvalidPath` (before any write)
exactly when one of the four path components is empty, is `.` or `..`, contains
the substring `..`, or contains a path separator; otherwise it writes at
`<root>/<platform>/<app_id>/<version>/<filename>` and caches the mapping. -/
theorem C7_save_mapping_validation (store : MappingStore) (platform : Platform)
    (app_id version filename : List Char) (content : List Nat) :
    ((∃ msg, store.saveMapping platform app_id version filename content =
        .error (.InvalidPath msg)) ↔
      (componentInvalid platform.asStr ∨ componentInvalid app_id ∨
        componentInvalid version ∨ componentInvalid filename)) ∧
    (¬(componentInvalid platform.asStr ∨ componentInvalid app_id ∨
        componentInvalid version ∨ componentInvalid filename) →
      store.saveMapping platform app_id version filename content =
        .ok (store.addMapping platform app_id version
              (store.root ++ [platform.asStr, app_id, version, filename]),
            store.root ++ [platform.asStr, app_id, version, filename])) := by
  by_cases h1 : componentInvalid platform.asStr
  · obtain ⟨m1, hm1⟩ := (validatePathComponent_cases platform.asStr _).1 h1
    refine ⟨⟨fun _ => Or.inl h1, fun _ => ?_⟩, fun hno => absurd (Or.inl h1) hno⟩
    refine ⟨m1, ?_⟩
    unfold MappingStore.saveMapping
    rw [hm1]
  · have hv1 := (validatePathComponent_cases platform.asStr "platform".toList).2 h1
    by_cases h2 : componentInvalid app_id
    · obtain ⟨m2, hm2⟩ := (validatePathComponent_cases app_id _).1 h2
      refine ⟨⟨fun _ => Or.inr (Or.inl h2), fun _ => ?_⟩,
        fun hno => absurd (Or.inr (Or.inl h2)) hno⟩
      refine ⟨m2, ?_⟩
      unfold MappingStore.saveMapping
      rw [hv1, hm2]
    · have hv2 := (validatePathComponent_cases app_id "app_id".toList).2 h2
      by_cases h3 : componentInvalid version
      · obtain ⟨m3, hm3⟩ := (validatePathComponent_cases version _).1 h3
        refine ⟨⟨fun _ => Or.inr (Or.inr (Or.inl h3)), fun _ => ?_⟩,
          fun hno => absurd (Or.inr (Or.inr (Or.inl h3))) hno⟩
        refine ⟨m3, ?_⟩
        unfold MappingStore.saveMapping
        rw [hv1, hv2, hm3]
      · have hv3 := (validatePathComponent_cases version "version".toList).2 h3
        by_cases h4 : componentInvalid filename
        · obtain ⟨m4, hm4⟩ := (validatePathComponent_cases filename _).1 h4
          refine ⟨⟨fun _ => Or.inr (Or.inr (Or.inr h4)), fun _ => ?_⟩,
            fun hno => absurd (Or.inr (Or.inr (Or.inr h4))) hno⟩
          refine ⟨m4, ?_⟩
          unfold MappingStore.saveMapping
          rw [hv1, hv2, hv3, hm4]
        · have hv4 := (validatePathComponent_cases filename "filename".toList).2 h4
          have hok : store.saveMapping platform app_id version filename content =
              .ok (store.addMapping platform app_id version
                    (store.root ++ [platform.asStr, app_id, version, filename]),
                  store.root ++ [platform.asStr, app_id, version, filename]) := by
            unfold MappingStore.saveMapping
            rw [hv1, hv2, hv3, hv4]
          refine ⟨⟨?_, fun hcon => ?_⟩, fun _ => hok⟩
          · rintro ⟨msg, hmsg⟩
            rw [hok] at hmsg
            exact Except.noConfusion hmsg
          · rcases hcon with h | h | h | h
            · exact absurd h h1
            · exact absurd h h2
            · exact absurd h h3
            · exact absurd h h4

/-- Witness for C7: `app_id = ".."` is rejected with `InvalidPath`; fully valid
components are written under the root. -/
theorem C7_save_mapping_validation_witness :
    (componentInvalid "..".toList ∧
      ∃ msg, MappingStore.saveMapping ⟨[], []⟩ .Android "..".toList "1.0.0".toList
        "mapping.txt".toList [] = .error (.InvalidPath msg)) ∧
    (¬(componentInvalid (Platform.Android).asStr ∨ componentInvalid "app".toList ∨
        componentInvalid "1.0.0".toList ∨ componentInvalid "mapping.txt".toList) ∧
      MappingStore.saveMapping ⟨[], []⟩ .Android "app".toList "1.0.0".toList
        "mapping.txt".toList [] =
        .ok (MappingStore.addMapping ⟨[], []⟩ .Android "app".toList "1.0.0".toList
              ([] ++ [(Platform.Android).asStr, "app".toList, "1.0.0".toList,
                "mapping.txt".toList]),
            [] ++ [(Platform.Android).asStr, "app".toList, "1.0.0".toList,
              "mapping.txt".toList])) :=
  ⟨⟨by decide,
    (C7_save_mapping_validation ⟨[], []⟩ .Android "..".toList "1.0.0".toList
      "mapping.txt".toList []).1.mpr (by decide)⟩,
   ⟨by decide,
    (C7_save_mapping_validation ⟨[], []⟩ .Android "app".toList "1.0.0".toList
      "mapping.txt".toList []).2 (by decide)⟩⟩

/-- C8 (confirmed): the store keeps `event_id` unique — inserting a report whose
`event_id` already exists is a no-op returning `None`; starting from a store
without the id, inserting twice leaves exactly one matching row. -/
theorem C8_event_id_unique :
    (∀ (db : CrashDb) (r : CrashReport),
      (∃ row ∈ db.rows, row.event_id = r.event_id) → db.insert r = (db, none)) ∧
    (∀ (db : CrashDb) (r r2 : CrashReport),
      r2.event_id = r.event_id →
      (∀ row ∈ db.rows, row.event_id ≠ r.event_id) →
      (db.insert r).2 = some db.nextId ∧
      (db.insert r).1.insert r2 = ((db.insert r).1, none) ∧
      (db.insert r).1.rows.length = db.rows.length + 1 ∧
      ((db.insert r).1.rows.filter (fun row => row.event_id == r.event_id)).length = 1) := by
  constructor
  · intro db r ⟨row, hrow, heq⟩
    unfold CrashDb.insert
    rw [if_pos (List.any_eq_true.mpr ⟨row, hrow, by simp [heq]⟩)]
  · intro db r r2 h12 hnone
    have hany : db.rows.any (fun row => row.event_id == r.event_id) = false := by
      rw [List.any_eq_false]
      intro row hrow
      simpa using hnone row hrow
    have hfil : db.rows.filter (fun row => row.event_id == r.event_id) = [] := by
      rw [List.filter_eq_nil_iff]
      intro row hrow
      simpa using hnone row hrow
    have hins : db.insert r =
        ({ nextId := db.nextId + 1, rows := db.rows ++ [{ r with id := db.nextId }] },
          some db.nextId) := by
      unfold CrashDb.insert
      rw [if_neg (by simp [hany])]
    refine ⟨by rw [hins], ?_, by rw [hins]; simp, ?_⟩
    · rw [hins]
      have hc : ((db.rows ++ [{ r with id := db.nextId }]).any
          (fun row => row.event_id == r2.event_id)) = true := by
        rw [List.any_append]
        simp [h12]
      unfold CrashDb.insert
      rw [if_pos hc]
    · rw [hins]
      simp only [List.filter_append, hfil]
      simp

/-- Witness for C8: two inserts of the same report into the empty store. -/
theorem C8_event_id_unique_witness :
    ((⟨1, []⟩ : CrashDb).insert
        ⟨0, "e".toList, "p".toList, 0, 0, none, none, none, none, none, [], none, none⟩).2 =
      some 1 ∧
    (((⟨1, []⟩ : CrashDb).insert
        ⟨0, "e".toList, "p".toList, 0, 0, none, none, none, none, none, [], none, none⟩).1.rows.filter
        (fun row => row.event_id == "e".toList)).length = 1 := by
  have h := C8_event_id_unique.2 ⟨1, []⟩
    ⟨0, "e".toList, "p".toList, 0, 0, none, none, none, none, none, [], none, none⟩
    ⟨0, "e".toList, "p".toList, 0, 0, none, none, none, none, none, [], none, none⟩
    rfl (by simp)
  exact ⟨h.1, h.2.2.2⟩

/-- C9 (amended): when the class is found and the obfuscated method has
line-range entries but none covers the frame's line, `deobfuscate_frame`
returns the original class, the method's original name — taken from the
no-line-info table when present, else the first entry — and the frame's line
number unchanged. -/
theorem C9_android_line_preserved (m : ProguardMapping) (cls mth : List Char) (l : Nat)
    (cm : ClassMapping) (entries : List LineRangeEntry)
    (hcls : assocFind cls m.classes = some cm)
    (hrange : assocFind mth cm.method_line_ranges = some entries)
    (hmiss : ∀ e ∈ entries, ¬(e.obf_start ≤ l ∧ l ≤ e.obf_end)) :
    m.deobfuscateFrame cls mth (some l) =
      some (cm.original,
        (match assocFind mth cm.methods_no_lines with
         | some nm => nm
         | none =>
            match entries.head? with
            | some e => e.method_name
            | none => mth),
        some l) := by
  have hfind : entries.find? (fun e => decide (e.obf_start ≤ l ∧ l ≤ e.obf_end)) = none := by
    rw [List.find?_eq_none]
    intro e he
    simpa using hmiss e he
  unfold ProguardMapping.deobfuscateFrame
  simp only [hcls, hrange, hfind, Option.bind]

/-- Witness for C9: a mapping with a single entry for `m` whose range `1..5`
does not contain line 100. -/
theorem C9_android_line_preserved_witness :
    (assocFind "a".toList
        (⟨[("a".toList, ⟨"com.ex.Foo".toList, "a".toList,
          [("m".toList, [⟨1, 5, 100, 104, "bar".toList⟩])], [], []⟩)]⟩ :
          ProguardMapping).classes).isSome = true ∧
    ProguardMapping.deobfuscateFrame
      ⟨[("a".toList, ⟨"com.ex.Foo".toList, "a".toList,
        [("m".toList, [⟨1, 5, 100, 104, "bar".toList⟩])], [], []⟩)]⟩
      "a".toList "m".toList (some 100) =
      some ("com.ex.Foo".toList, "bar".toList, some 100) := by
  constructor
  · decide
  · exact C9_android_line_preserved
      ⟨[("a".toList, ⟨"com.ex.Foo".toList, "a".toList,
        [("m".toList, [⟨1, 5, 100, 104, "bar".toList⟩])], [], []⟩)]⟩
      "a".toList "m".toList 100
      ⟨"com.ex.Foo".toList, "a".toList,
        [("m".toList, [⟨1, 5, 100, 104, "bar".toList⟩])], [], []⟩
      [⟨1, 5, 100, 104, "bar".toList⟩]
      (by decide) (by decide) (by decide)

/-- Counterexample to C9 as stated: when the no-line-info table also maps the
method, the returned name is that table's name, not the first line-range
entry's. -/
theorem C9_counterexample :
    ProguardMapping.deobfuscateFrame
      ⟨[("a".toList, ⟨"com.ex.Foo".toList, "a".toList,
        [("m".toList, [⟨1, 5, 100, 104, "bar".toList⟩])],
        [("m".toList, "baz".toList)], []⟩)]⟩
      "a".toList "m".toList (some 100) =
      some ("com.ex.Foo".toList, "baz".toList, some 100) ∧
    "baz".toList ≠ "bar".toList ∧
    ∀ e ∈ [(⟨1, 5, 100, 104, "bar".toList⟩ : LineRangeEntry)],
      ¬(e.obf_start ≤ 100 ∧ 100 ≤ e.obf_end) := by
  refine ⟨by decide, by decide, by decide⟩

/-! Comparator laws: the version comparator of `get_with_fallback` is a total
preorder comparator, which is what makes "the newest entry" well-defined. -/

theorem lexList_symm {cmp : α → α → Ordering} [Batteries.OrientedCmp cmp] :
    ∀ xs ys : List α, (lexList cmp xs ys).swap = lexList cmp ys xs := by
  intro xs
  induction xs with
  | nil => intro ys; cases ys <;> rfl
  | cons a xs ih =>
      intro ys
      cases ys with
      | nil => rfl
      | cons b ys =>
          simp only [lexList, Ordering.swap_then, Batteries.OrientedCmp.symm, ih]

theorem lexList_le_trans {cmp : α → α → Ordering} [Batteries.TransCmp cmp] :
    ∀ xs ys zs : List α, lexList cmp xs ys ≠ .gt → lexList cmp ys zs ≠ .gt →
      lexList cmp xs zs ≠ .gt := by
  intro xs
  induction xs with
  | nil =>
      intro ys zs h1 h2
      cases zs <;> simp [lexList]
  | cons a xs ih =>
      intro ys zs h1 h2
      cases ys with
      | nil => simp [lexList] at h1
      | cons b ys =>
          cases zs with
          | nil => simp [lexList] at h2
          | cons c zs =>
              simp only [lexList, ne_eq, Ordering.then_eq_gt, not_or, not_and] at h1 h2 ⊢
              obtain ⟨h1g, h1e⟩ := h1
              obtain ⟨h2g, h2e⟩ := h2
              refine ⟨fun hac => Batteries.TransCmp.le_trans h1g h2g hac, ?_⟩
              intro hace
              cases hab : cmp a b with
              | gt => exact absurd hab h1g
              | lt =>
                  have : cmp a c = .lt := Batteries.TransCmp.lt_le_trans hab h2g
                  rw [this] at hace
                  exact Ordering.noConfusion hace
              | eq =>
                  have hbc : cmp b c = .eq := by
                    rw [← Batteries.TransCmp.cmp_congr_left hab]
                    exact hace
                  exact ih ys zs (h1e hab) (h2e hbc)

instance {cmp : α → α → Ordering} [Batteries.TransCmp cmp] :
    Batteries.TransCmp (lexList cmp) where
  symm := lexList_symm
  le_trans h1 h2 := lexList_le_trans _ _ _ h1 h2

instance : Batteries.TransCmp cmpPreId where
  symm x y := by
    cases x <;> cases y
    · rename_i a b
      show (compare a b).swap = compare b a
      exact Batteries.OrientedCmp.symm ..
    · rfl
    · rfl
    · exact lexList_symm ..
  le_trans := by
    intro x y z h1 h2
    cases x with
    | num a =>
        cases y with
        | num b =>
            cases z with
            | num c =>
                show compare a c ≠ .gt
                exact Batteries.TransCmp.le_trans h1 h2
            | alpha c => exact fun hcon => Ordering.noConfusion hcon
        | alpha b =>
            cases z with
            | num c => exact absurd rfl h2
            | alpha c => exact fun hcon => Ordering.noConfusion hcon
    | alpha a =>
        cases y with
        | num b => exact absurd rfl h1
        | alpha b =>
            cases z with
            | num c => exact absurd rfl h2
            | alpha c => exact lexList_le_trans _ _ _ h1 h2

instance : Batteries.TransCmp cmpPre where
  symm x y := by
    cases x <;> cases y
    · rfl
    · rfl
    · rfl
    · exact lexList_symm ..
  le_trans := by
    intro x y z h1 h2
    cases x with
    | nil =>
        cases y with
        | nil =>
            cases z with
            | nil => exact fun hcon => Ordering.noConfusion hcon
            | cons c zs => exact absurd rfl h2
        | cons b ys => exact absurd rfl h1
    | cons a xs =>
        cases y with
        | nil =>
            cases z with
            | nil => exact fun hcon => Ordering.noConfusion hcon
            | cons c zs => exact absurd rfl h2
        | cons b ys =>
            cases z with
            | nil => exact fun hcon => Ordering.noConfusion hcon
            | cons c zs => exact lexList_le_trans (a :: xs) (b :: ys) (c :: zs) h1 h2

instance : Batteries.TransCmp semverCmp := by
  have h : semverCmp = compareLex (compareOn SemVer.major)
      (compareLex (compareOn SemVer.minor)
        (compareLex (compareOn SemVer.patch) (Ordering.byKey SemVer.pre cmpPre))) := rfl
  rw [h]
  infer_instance

instance : Batteries.TransCmp versionOrder where
  symm x y := by
    rcases hx : semverParse x with _ | va <;> rcases hy : semverParse y with _ | vb <;>
      simp only [versionOrder, hx, hy]
    · exact lexList_symm ..
    · rfl
    · rfl
    · exact Batteries.OrientedCmp.symm ..
  le_trans := by
    intro x y z h1 h2
    rcases hx : semverParse x with _ | va <;> rcases hy : semverParse y with _ | vb <;>
      rcases hz : semverParse z with _ | vc <;>
      simp only [versionOrder, hx, hy, hz] at h1 h2 ⊢
    · exact lexList_le_trans _ _ _ h1 h2
    · exact fun hcon => Ordering.noConfusion hcon
    · exact absurd rfl h2
    · exact fun hcon => Ordering.noConfusion hcon
    · exact absurd rfl h1
    · exact absurd rfl h1
    · exact absurd rfl h2
    · exact Batteries.TransCmp.le_trans h1 h2

theorem foldl_maxStep_mem : ∀ (l : List (MappingKey × MappingInfo)) (acc : Option _)
    (m : MappingKey × MappingInfo), l.foldl maxStep acc = some m → acc = some m ∨ m ∈ l := by
  intro l
  induction l with
  | nil => intro acc m h; exact Or.inl h
  | cons x l ih =>
      intro acc m h
      rw [List.foldl_cons] at h
      rcases ih (maxStep acc x) m h with hacc | hmem
      · cases acc with
        | none =>
            simp only [maxStep] at hacc
            injection hacc with e
            exact Or.inr (by rw [← e]; exact List.mem_cons_self ..)
        | some mm =>
            simp only [maxStep] at hacc
            by_cases hgt : versionOrder mm.1.version x.1.version = .gt
            · rw [if_pos hgt] at hacc
              exact Or.inl hacc
            · rw [if_neg hgt] at hacc
              injection hacc with e
              exact Or.inr (by rw [← e]; exact List.mem_cons_self ..)
      · exact Or.inr (List.mem_cons_of_mem _ hmem)

theorem foldl_maxStep_maximal : ∀ (l : List (MappingKey × MappingInfo)) (acc : Option _)
    (m : MappingKey × MappingInfo), l.foldl maxStep acc = some m →
    (∀ x ∈ l, versionOrder x.1.version m.1.version ≠ .gt) ∧
    (∀ a, acc = some a → versionOrder a.1.version m.1.version ≠ .gt) := by
  intro l
  induction l with
  | nil =>
      intro acc m h
      rw [List.foldl_nil] at h
      refine ⟨by simp, ?_⟩
      intro a ha
      rw [h] at ha
      injection ha with e
      subst e
      intro hcon
      have hrefl : versionOrder m.1.version m.1.version = .eq :=
        Batteries.OrientedCmp.cmp_refl
      rw [hrefl] at hcon
      exact Ordering.noConfusion hcon
  | cons x l ih =>
      intro acc m h
      rw [List.foldl_cons] at h
      obtain ⟨hl, hacc⟩ := ih (maxStep acc x) m h
      have hx : versionOrder x.1.version m.1.version ≠ .gt := by
        cases acc with
        | none => exact hacc x (by simp [maxStep])
        | some mm =>
            by_cases hgt : versionOrder mm.1.version x.1.version = .gt
            · have hmm := hacc mm (by simp only [maxStep]; rw [if_pos hgt])
              have hxmm : versionOrder x.1.version mm.1.version ≠ .gt :=
                Batteries.TransCmp.gt_asymm hgt
              exact Batteries.TransCmp.le_trans hxmm hmm
            · exact hacc x (by simp only [maxStep]; rw [if_neg hgt])
      refine ⟨?_, ?_⟩
      · intro y hy
        rcases List.mem_cons.mp hy with rfl | hy
        · exact hx
        · exact hl y hy
      · intro a ha
        cases acc with
        | none => exact Option.noConfusion ha
        | some mm =>
            injection ha with e
            rw [← e]
            by_cases hgt : versionOrder mm.1.version x.1.version = .gt
            · exact hacc mm (by simp only [maxStep]; rw [if_pos hgt])
            · exact Batteries.TransCmp.le_trans hgt hx

theorem foldl_maxStep_ne_none : ∀ (l : List (MappingKey × MappingInfo)) (acc : Option _),
    acc ≠ none → l.foldl maxStep acc ≠ none := by
  intro l
  induction l with
  | nil => intro acc h; simpa using h
  | cons x l ih =>
      intro acc h
      rw [List.foldl_cons]
      refine ih _ ?_
      cases acc with
      | none => simp [maxStep]
      | some mm =>
          simp only [maxStep]
          split <;> simp

/-- C6 (confirmed): `get_with_fallback` returns the exact match when the key is
bound; otherwise whatever it returns belongs to the `(platform, app_id)` group
and no group member's version string is ordered above it by the code's
comparator (semver when both parse, parsed above unparsed, else lexicographic);
it returns something whenever the group is non-empty; and on the stores
1.0.0 / 1.1.0 / 2.0.0 a lookup for 1.0.5 returns the 2.0.0 entry. -/
theorem C6_get_with_fallback :
    (∀ (store : MappingStore) (platform : Platform) (app_id version : List Char)
      (info : MappingInfo),
      store.get platform app_id version = some info →
      store.getWithFallback platform app_id version = some info) ∧
    (∀ (store : MappingStore) (platform : Platform) (app_id version : List Char)
      (info : MappingInfo),
      store.get platform app_id version = none →
      store.getWithFallback platform app_id version = some info →
      ∃ k, (k, info) ∈ store.mappings ∧ k.platform = platform ∧ k.app_id = app_id ∧
        ∀ p ∈ store.mappings, p.1.platform = platform → p.1.app_id = app_id →
          versionOrder p.1.version k.version ≠ .gt) ∧
    (∀ (store : MappingStore) (platform : Platform) (app_id version : List Char),
      store.get platform app_id version = none →
      (∃ p ∈ store.mappings, p.1.platform = platform ∧ p.1.app_id = app_id) →
      ∃ info, store.getWithFallback platform app_id version = some info) ∧
    (MappingStore.getWithFallback
      ⟨[], [(⟨.Android, "app".toList, "1.0.0".toList⟩,
              ⟨["1.0.0".toList], .Android, "app".toList, "1.0.0".toList⟩),
            (⟨.Android, "app".toList, "1.1.0".toList⟩,
              ⟨["1.1.0".toList], .Android, "app".toList, "1.1.0".toList⟩),
            (⟨.Android, "app".toList, "2.0.0".toList⟩,
              ⟨["2.0.0".toList], .Android, "app".toList, "2.0.0".toList⟩)]⟩
      .Android "app".toList "1.0.5".toList =
      some ⟨["2.0.0".toList], .Android, "app".toList, "2.0.0".toList⟩) := by
  refine ⟨?_, ?_, ?_, ?_⟩
  · intro store platform app_id version info h
    simp only [MappingStore.getWithFallback, h]
  · intro store platform app_id version info hget hfall
    simp only [MappingStore.getWithFallback, hget] at hfall
    rcases hmv : maxByVersion (store.mappings.filter
        (fun p => decide (p.1.platform = platform ∧ p.1.app_id = app_id))) with _ | m
    · rw [hmv] at hfall
      exact Option.noConfusion hfall
    · rw [hmv] at hfall
      have hm2 : m.2 = info := by
        simpa using hfall
      have hmem : m ∈ store.mappings.filter
          (fun p => decide (p.1.platform = platform ∧ p.1.app_id = app_id)) := by
        rcases foldl_maxStep_mem _ none m hmv with hcon | hmem
        · exact Option.noConfusion hcon
        · exact hmem
      have hmax := (foldl_maxStep_maximal _ none m hmv).1
      obtain ⟨hmaps, hpred⟩ := List.mem_filter.mp hmem
      obtain ⟨hplat, happ⟩ := of_decide_eq_true hpred
      refine ⟨m.1, ?_, hplat, happ, ?_⟩
      · rw [← hm2]
        exact hmaps
      · intro p hp hp1 hp2
        exact hmax p (List.mem_filter.mpr ⟨hp, decide_eq_true ⟨hp1, hp2⟩⟩)
  · rintro store platform app_id version hget ⟨p, hp, hp1, hp2⟩
    have hmem : p ∈ store.mappings.filter
        (fun q => decide (q.1.platform = platform ∧ q.1.app_id = app_id)) :=
      List.mem_filter.mpr ⟨hp, decide_eq_true ⟨hp1, hp2⟩⟩
    have hne : store.mappings.filter
        (fun q => decide (q.1.platform = platform ∧ q.1.app_id = app_id)) ≠ [] :=
      List.ne_nil_of_mem hmem
    obtain ⟨x, rest, hfl⟩ : ∃ x rest, store.mappings.filter
        (fun q => decide (q.1.platform = platform ∧ q.1.app_id = app_id)) = x :: rest := by
      rcases hcase : store.mappings.filter
          (fun q => decide (q.1.platform = platform ∧ q.1.app_id = app_id)) with _ | ⟨x, rest⟩
      · exact absurd hcase hne
      · exact ⟨x, rest, hcase⟩
    have hnn : maxByVersion (x :: rest) ≠ none := by
      unfold maxByVersion
      rw [List.foldl_cons]
      exact foldl_maxStep_ne_none rest (maxStep none x) (by simp [maxStep])
    rcases hmx : maxByVersion (x :: rest) with _ | m
    · exact absurd hmx hnn
    · refine ⟨m.2, ?_⟩
      simp only [MappingStore.getWithFallback, hget, hfl, hmx]
      rfl
  · decide

/-- Witness for C6: the exact-match, maximality and non-emptiness parts applied
to a concrete two-entry store. -/
theorem C6_get_with_fallback_witness :
    (MappingStore.get
        ⟨[], [(⟨.Android, "app".toList, "1.0.0".toList⟩,
                ⟨["1.0.0".toList], .Android, "app".toList, "1.0.0".toList⟩)]⟩
        .Android "app".toList "1.0.0".toList =
        some ⟨["1.0.0".toList], .Android, "app".toList, "1.0.0".toList⟩ ∧
      MappingStore.getWithFallback
        ⟨[], [(⟨.Android, "app".toList, "1.0.0".toList⟩,
                ⟨["1.0.0".toList], .Android, "app".toList, "1.0.0".toList⟩)]⟩
        .Android "app".toList "1.0.0".toList =
        some ⟨["1.0.0".toList], .Android, "app".toList, "1.0.0".toList⟩) ∧
    (MappingStore.get
        ⟨[], [(⟨.Android, "app".toList, "1.0.0".toList⟩,
                ⟨["1.0.0".toList], .Android, "app".toList, "1.0.0".toList⟩)]⟩
        .Android "app".toList "9.9.9".toList = none ∧
      ∃ info, MappingStore.getWithFallback
        ⟨[], [(⟨.Android, "app".toList, "1.0.0".toList⟩,
                ⟨["1.0.0".toList], .Android, "app".toList, "1.0.0".toList⟩)]⟩
        .Android "app".toList "9.9.9".toList = some info) := by
  refine ⟨⟨by decide, ?_⟩, by decide, ?_⟩
  · exact C6_get_with_fallback.1 _ _ _ _ _ (by decide)
  · exact C6_get_with_fallback.2.2.1 _ _ _ _ (by decide)
      ⟨(⟨.Android, "app".toList, "1.0.0".toList⟩,
        ⟨["1.0.0".toList], .Android, "app".toList, "1.0.0".toList⟩),
       by decide, by decide, by decide⟩

end Bugstr
